import Mathlib

/-!
Verification of the bedrock NBT and subchunk codecs (src/nbt.py, src/bedrock.py).

A wire buffer is a list of byte values (Nat, each < 256 when produced by the
writers).  Python strings are modelled as lists of Unicode code points.
Machine integers are modelled as Int with explicit two's-complement wrapping.
Fallible operations return Except Err.  The recursive tag decoder takes a fuel
parameter standing for Python's unbounded recursion; every theorem quantifies
over sufficient fuel.
-/

namespace Bedrock

/-- Error outcomes, mirroring the Python exceptions raised by the source:
struct.error on a short read (the spec's TruncatedData), struct.error on an
out-of-range pack value (the spec's ValueOutOfRange), UnicodeDecodeError
(InvalidEncoding), NotImplementedError from the tag dispatch (the spec's
UnsupportedTagKind), IndexError from Python list indexing, TypeError from
calling a None dispatch entry or taking len() of an int name,
NotImplementedError on subchunk header checks, ZeroDivisionError, KeyError
from TAG.__getitem__, and a fuel marker for the recursion bound of the model. -/
inductive Err where
  | truncated
  | packRange
  | badUtf8
  | badStructFormat
  | tagNotImplemented
  | indexError
  | notCallable
  | typeError
  | keyError
  | unsupportedVersion
  | unsupportedStorages
  | zeroDivision
  | fuelOut
  deriving DecidableEq, Repr

/-- Sequential reader over a byte buffer: DataReader state passing.
A reader returns the value and the remaining (unconsumed) bytes. -/
def M (α : Type) : Type := List Nat → Except Err (α × List Nat)

def M.bind {α β : Type} (f : M α) (g : α → M β) : M β := fun bs =>
  match f bs with
  | .error e => .error e
  | .ok (a, rest) => g a rest

def M.pure {α : Type} (a : α) : M α := fun bs => .ok (a, bs)

def M.fail {α : Type} (e : Err) : M α := fun _ => .error e

/-- Lift an already-computed Except value into a reader (consumes nothing). -/
def M.liftE {α : Type} (r : Except Err α) : M α := fun bs =>
  match r with
  | .ok a => .ok (a, bs)
  | .error e => .error e

/-- Lift an Option into a reader, failing with the given error on none. -/
def M.liftOpt {α : Type} (o : Option α) (e : Err) : M α :=
  match o with
  | some a => M.pure a
  | none => M.fail e

/-- Error-propagating sequencing of writer steps (Python exceptions abort the
whole encode). -/
def E.bind {α β : Type} (x : Except Err α) (f : α → Except Err β) : Except Err β :=
  match x with
  | .error e => .error e
  | .ok a => f a

/-- Little-endian value of a byte list. -/
def leNat : List Nat → Nat
  | [] => 0
  | b :: bs => b + 256 * leNat bs

/-- Little-endian bytes of a value, fixed width (struct.pack semantics). -/
def leBytes : Nat → Nat → List Nat
  | 0, _ => []
  | w + 1, v => v % 256 :: leBytes w (v / 256)

/-- Two's-complement signed reading of a width-w little-endian value
(struct.unpack with formats b, h, i, q). -/
def toSigned (w n : Nat) : Int :=
  if n < 2 ^ (8 * w - 1) then (n : Int) else (n : Int) - 2 ^ (8 * w)

/-- DataReader.pop: consume size bytes as a little-endian signed integer;
struct.error (truncated) if fewer bytes remain. -/
def popM (size : Nat) : M Int := fun bs =>
  if size ≤ bs.length then
    .ok (toSigned size (leNat (bs.take size)), bs.drop size)
  else .error .truncated

/-- Raw slice read of n bytes (the s-format part of struct.unpack). -/
def popRaw (n : Nat) : M (List Nat) := fun bs =>
  if n ≤ bs.length then .ok (bs.take n, bs.drop n) else .error .truncated

/-- Does the signed value v fit the width-w signed pack format? -/
def intFits (w : Nat) (v : Int) : Bool :=
  decide (-(2 ^ (8 * w - 1) : Int) ≤ v) && decide (v < (2 ^ (8 * w - 1) : Int))

/-- DataWriter.put: struct.pack of one signed little-endian integer;
struct.error (packRange) if the value does not fit. -/
def putInt (w : Nat) (v : Int) : Except Err (List Nat) :=
  if intFits w v then .ok (leBytes w (v % (2 ^ (8 * w) : Int)).toNat)
  else .error .packRange

/-- UTF-8 encoding of one code point. -/
def utf8Char (c : Nat) : List Nat :=
  if c < 0x80 then [c]
  else if c < 0x800 then [0xC0 + c / 0x40, 0x80 + c % 0x40]
  else if c < 0x10000 then
    [0xE0 + c / 0x1000, 0x80 + c / 0x40 % 0x40, 0x80 + c % 0x40]
  else
    [0xF0 + c / 0x40000, 0x80 + c / 0x1000 % 0x40, 0x80 + c / 0x40 % 0x40,
      0x80 + c % 0x40]

/-- UTF-8 encoding of a string (list of code points). -/
def utf8Encode (s : List Nat) : List Nat := (s.map utf8Char).flatten

/-- Read fuel continuation bytes, accumulating the code point value. -/
def utf8Conts : Nat → Nat → List Nat → Option (Nat × List Nat)
  | 0, acc, bs => some (acc, bs)
  | _ + 1, _, [] => none
  | n + 1, acc, b :: bs =>
    if 0x80 ≤ b ∧ b < 0xC0 then utf8Conts n (acc * 0x40 + (b - 0x80)) bs
    else none

/-- UTF-8 decoding with a fuel bound (one byte consumed per step at least,
so fuel = list length always suffices); mirrors bytes.decode of Python,
rejecting truncated sequences, overlong forms, surrogates and values
above 0x10FFFF. -/
def utf8DecodeF : Nat → List Nat → Option (List Nat)
  | _, [] => some []
  | 0, _ :: _ => none
  | f + 1, b :: bs =>
    if b < 0x80 then (utf8DecodeF f bs).map (b :: ·)
    else
      match
        (if 0xC2 ≤ b ∧ b ≤ 0xDF then utf8Conts 1 (b - 0xC0) bs
         else if 0xE0 ≤ b ∧ b ≤ 0xEF then utf8Conts 2 (b - 0xE0) bs
         else if 0xF0 ≤ b ∧ b ≤ 0xF4 then utf8Conts 3 (b - 0xF0) bs
         else none) with
      | none => none
      | some (v, rest) =>
        if 0x80 ≤ v ∧ ¬ (0xD800 ≤ v ∧ v ≤ 0xDFFF) ∧ v ≤ 0x10FFFF ∧
            (0xE0 ≤ b → 0x800 ≤ v) ∧ (0xF0 ≤ b → 0x10000 ≤ v) then
          (utf8DecodeF f rest).map (v :: ·)
        else none

def utf8Decode (l : List Nat) : Option (List Nat) := utf8DecodeF l.length l

/-- DataReader.popString: a signed 16-bit length then that many bytes decoded
as UTF-8.  A negative length makes a malformed struct format string. -/
def popStringM : M (List Nat) :=
  M.bind (popM 2) fun sz =>
    if sz < 0 then M.fail .badStructFormat
    else
      M.bind (popRaw sz.toNat) fun raw =>
        M.liftOpt (utf8Decode raw) .badUtf8

/-- struct.pack of N-byte padded/truncated byte field (format Ns): the data is
cut or zero-filled to exactly n bytes. -/
def padTrunc (n : Nat) (bs : List Nat) : List Nat :=
  bs.take n ++ List.replicate (n - bs.length) 0

/-- DataWriter.putString: writes len(string) (the CODE POINT count, not the
UTF-8 byte count) as a signed 16-bit prefix, then struct.pack("<Ns") of the
UTF-8 bytes, truncated or zero-padded to that same count. -/
def putString (s : List Nat) : Except Err (List Nat) :=
  E.bind (putInt 2 s.length) fun pre =>
    .ok (pre ++ padTrunc s.length (utf8Encode s))

/-- A Python tag name: a str for named tags, or the int position index that
TAG_List / TAG_Byte_Array decoding assigns to elements. -/
inductive PyName where
  | str (s : List Nat)
  | int (i : Int)
  deriving DecidableEq, Repr

/-- The tag tree: one variant per TAG subclass of nbt.py, each holding its
Python name and payload.  Equality is TAG.__eq__ (same class, name, payload). -/
inductive Tag where
  | byte (name : PyName) (v : Int)
  | short (name : PyName) (v : Int)
  | int (name : PyName) (v : Int)
  | long (name : PyName) (v : Int)
  | byteArray (name : PyName) (items : List Tag)
  | string (name : PyName) (s : List Nat)
  | list (name : PyName) (items : List Tag)
  | compound (name : PyName) (items : List Tag)

mutual

/-- TAG.__eq__: same name, same payload (element-wise), same class ID. -/
def Tag.beq : Tag → Tag → Bool
  | .byte n v, .byte n2 v2 => n == n2 && v == v2
  | .short n v, .short n2 v2 => n == n2 && v == v2
  | .int n v, .int n2 v2 => n == n2 && v == v2
  | .long n v, .long n2 v2 => n == n2 && v == v2
  | .byteArray n l, .byteArray n2 l2 => n == n2 && Tag.beqL l l2
  | .string n s, .string n2 s2 => n == n2 && s == s2
  | .list n l, .list n2 l2 => n == n2 && Tag.beqL l l2
  | .compound n l, .compound n2 l2 => n == n2 && Tag.beqL l l2
  | _, _ => false

/-- Python list equality of tag payloads. -/
def Tag.beqL : List Tag → List Tag → Bool
  | [], [] => true
  | t :: r, t2 :: r2 => Tag.beq t t2 && Tag.beqL r r2
  | _, _ => false

end

/-- The class attribute ID of each TAG subclass (1,2,3,4,7,8,9,10). -/
def Tag.id : Tag → Nat
  | .byte .. => 1
  | .short .. => 2
  | .int .. => 3
  | .long .. => 4
  | .byteArray .. => 7
  | .string .. => 8
  | .list .. => 9
  | .compound .. => 10

def Tag.name : Tag → PyName
  | .byte n _ | .short n _ | .int n _ | .long n _ | .byteArray n _
  | .string n _ | .list n _ | .compound n _ => n

/-- Result of the Python expression tags[i] on the 13-entry dispatch list:
a tag class, a None entry, or an IndexError.  Python list indexing accepts
negative indexes down to -13, wrapping by adding the length. -/
inductive Dispatch where
  | cls (k : Nat)
  | noneEntry
  | oob
  deriving DecidableEq, Repr

def validTagId (k : Nat) : Bool :=
  k == 1 || k == 2 || k == 3 || k == 4 || k == 7 || k == 8 || k == 9 || k == 10

def tagsIdx (i : Int) : Dispatch :=
  if 0 ≤ i ∧ i < 13 then
    (if validTagId i.toNat then .cls i.toNat else .noneEntry)
  else if -13 ≤ i ∧ i < 0 then
    (if validTagId (i + 13).toNat then .cls (i + 13).toNat else .noneEntry)
  else .oob

/-- Case analysis on a dispatch outcome (keeps the decoders free of matches
on computed scrutinees). -/
def Dispatch.caseM {α : Type} : Dispatch → M α → M α → (Nat → M α) → M α
  | .oob, o, _, _ => o
  | .noneEntry, _, n, _ => n
  | .cls k, _, _, f => f k

/-- TAG_Byte_Array.decode's loop body: size single-byte tags named by their
integer position. -/
def decodeByteItems : Nat → Int → M (List Tag)
  | 0, _ => M.pure []
  | n + 1, i =>
    M.bind (popM 1) fun v =>
      M.bind (decodeByteItems n (i + 1)) fun rest =>
        M.pure (.byte (.int i) v :: rest)

mutual

/-- Payload decoding of the tag class with the given (valid) ID; mirrors
TAG.__init__ calling the subclass decode method.  The name is the one the
caller passes to the constructor. -/
def decodeTagged : Nat → Nat → PyName → M Tag
  | 0, _, _ => M.fail .fuelOut
  | fuel + 1, id, name =>
    if id = 1 then M.bind (popM 1) fun v => M.pure (.byte name v)
    else if id = 2 then M.bind (popM 2) fun v => M.pure (.short name v)
    else if id = 3 then M.bind (popM 4) fun v => M.pure (.int name v)
    else if id = 4 then M.bind (popM 8) fun v => M.pure (.long name v)
    else if id = 7 then
      M.bind (popM 4) fun sz =>
        M.bind (decodeByteItems sz.toNat 0) fun items =>
          M.pure (.byteArray name items)
    else if id = 8 then M.bind popStringM fun s => M.pure (.string name s)
    else if id = 9 then
      M.bind (popM 1) fun itemID =>
        M.bind (popM 4) fun sz =>
          M.bind (decodeListItems fuel itemID sz.toNat 0) fun items =>
            M.pure (.list name items)
    else
      M.bind (decodeCompoundItems fuel) fun items =>
        M.pure (.compound name items)

/-- TAG_List.decode's loop: size elements of the kind tags[itemID], named by
integer position.  tags[itemID] is evaluated only when an element is read:
IndexError for an out-of-range index, TypeError (not callable) when the
entry is None. -/
def decodeListItems : Nat → Int → Nat → Int → M (List Tag)
  | _, _, 0, _ => M.pure []
  | 0, _, _ + 1, _ => M.fail .fuelOut
  | fuel + 1, itemID, n + 1, i =>
    Dispatch.caseM (tagsIdx itemID) (M.fail .indexError) (M.fail .notCallable)
      fun k =>
        M.bind (decodeTagged fuel k (.int i)) fun t =>
          M.bind (decodeListItems fuel itemID n (i + 1)) fun rest =>
            M.pure (t :: rest)

/-- TAG_Compound.decode's loop: read a discriminant byte; 0 terminates,
a recognised class reads a name then a payload, a None entry raises
NotImplementedError, an out-of-range signed byte raises IndexError. -/
def decodeCompoundItems : Nat → M (List Tag)
  | 0 => M.fail .fuelOut
  | fuel + 1 =>
    M.bind (popM 1) fun tagID =>
      if tagID = 0 then M.pure []
      else
        Dispatch.caseM (tagsIdx tagID) (M.fail .indexError)
          (M.fail .tagNotImplemented) fun k =>
            M.bind popStringM fun nm =>
              M.bind (decodeTagged fuel k (.str nm)) fun t =>
                M.bind (decodeCompoundItems fuel) fun rest =>
                  M.pure (t :: rest)

end

/-- nbt.decode: one top-level tag, a discriminant byte then a name then the
payload. -/
def nbtDecode (fuel : Nat) : M Tag :=
  M.bind (popM 1) fun tagID =>
    Dispatch.caseM (tagsIdx tagID) (M.fail .indexError)
      (M.fail .tagNotImplemented) fun k =>
        M.bind popStringM fun nm => decodeTagged fuel k (.str nm)

/-- Write a tag name: putString for a str; Python len() of an int name raises
TypeError. -/
def putName : PyName → Except Err (List Nat)
  | .str s => putString s
  | .int _ => .error .typeError

mutual

/-- The payload bytes of one tag: each TAG subclass encode method. -/
def encodePayload : Tag → Except Err (List Nat)
  | .byte _ v => putInt 1 v
  | .short _ v => putInt 2 v
  | .int _ v => putInt 4 v
  | .long _ v => putInt 8 v
  | .string _ s => putString s
  | .byteArray _ items =>
    E.bind (putInt 4 items.length) fun pre =>
      E.bind (encodeItems items) fun body =>
        .ok (pre ++ body)
  | .list _ items =>
    match items with
    | [] =>
      -- Empty list: the element-kind byte defaults to 0 (TAG_End).
      E.bind (putInt 1 0) fun kindB =>
        E.bind (putInt 4 0) fun cnt =>
          .ok (kindB ++ cnt)
    | t :: _ =>
      E.bind (putInt 1 t.id) fun kindB =>
        E.bind (putInt 4 items.length) fun cnt =>
          E.bind (encodeItems items) fun body =>
            .ok (kindB ++ cnt ++ body)
  | .compound _ items =>
    E.bind (encodeCompoundItems items) fun body =>
      E.bind (putInt 1 0) fun z =>
        .ok (body ++ z)

/-- item.encode for each element in order (TAG_List / TAG_Byte_Array bodies:
element names are not written). -/
def encodeItems : List Tag → Except Err (List Nat)
  | [] => .ok []
  | t :: rest =>
    E.bind (encodePayload t) fun b =>
      E.bind (encodeItems rest) fun r =>
        .ok (b ++ r)

/-- TAG_Compound.encode body: discriminant byte, name, payload per child. -/
def encodeCompoundItems : List Tag → Except Err (List Nat)
  | [] => .ok []
  | t :: rest =>
    E.bind (putInt 1 t.id) fun idB =>
      E.bind (putName t.name) fun nmB =>
        E.bind (encodePayload t) fun pB =>
          E.bind (encodeCompoundItems rest) fun rB =>
            .ok (idB ++ nmB ++ pB ++ rB)

end

/-- nbt.encode: discriminant byte, name, payload of one top-level tag. -/
def nbtEncode (t : Tag) : Except Err (List Nat) :=
  E.bind (putInt 1 t.id) fun idB =>
    E.bind (putName t.name) fun nmB =>
      E.bind (encodePayload t) fun pB =>
        .ok (idB ++ nmB ++ pB)

/-- TAG_Compound.pop: remove and return the first child with the given name,
or None leaving the payload unchanged. -/
def tagPop (nm : PyName) : List Tag → Option Tag × List Tag
  | [] => (none, [])
  | t :: rest =>
    if t.name = nm then (some t, rest)
    else
      let r := tagPop nm rest
      (r.1, t :: r.2)

/-- nbt-stream decoding: repeated nbt.decode until DataReader.finished()
(the tile-entity loading loop).  The outer fuel bounds the number of tags;
each successful decode consumes at least one byte, so the buffer length
always suffices. -/
def decodeStream : Nat → Nat → List Nat → Except Err (List Tag)
  | _, _, [] => .ok []
  | 0, _, _ :: _ => .error .fuelOut
  | sf + 1, fuel, bs =>
    E.bind (nbtDecode fuel bs) fun p =>
      E.bind (decodeStream sf fuel p.2) fun ts =>
        .ok (p.1 :: ts)

/-- Encoding a back-to-back stream of top-level tags (tile-entity saving). -/
def encodeStream : List Tag → Except Err (List Nat)
  | [] => .ok []
  | t :: rest =>
    E.bind (nbtEncode t) fun b =>
      E.bind (encodeStream rest) fun r =>
        .ok (b ++ r)

mutual

/-- Fuel sufficient to decode a tag: one unit per node of the recursion the
Python decoder performs. -/
def tagFuel : Tag → Nat
  | .list _ items => 1 + listFuel items
  | .compound _ items => 1 + listFuel items
  | _ => 1

def listFuel : List Tag → Nat
  | [] => 1
  | t :: r => 1 + tagFuel t + listFuel r

end

/-- All code points single-byte in UTF-8 and count within the signed 16-bit
pack range: exactly the strings DataWriter.putString handles losslessly. -/
def asciiStrB (s : List Nat) : Bool := s.all (· < 128) && s.length ≤ 32767

def nameOKB : PyName → Bool
  | .str s => asciiStrB s
  | .int _ => false

mutual

/- Grammar of section 3 restricted to encodable payloads. -/

/-- Grammar of section 3 restricted to encodable payloads: integers in range,
strings of single-byte code points, byte arrays of positionally-named Byte
tags, homogeneous lists with positional names, compounds with str-named
children. -/
def payloadOK : Tag → Bool
  | .byte _ v => intFits 1 v
  | .short _ v => intFits 2 v
  | .int _ v => intFits 4 v
  | .long _ v => intFits 8 v
  | .string _ s => asciiStrB s
  | .byteArray _ items => decide (items.length < 2 ^ 31) && byteItemsOK 0 items
  | .list _ items =>
    decide (items.length < 2 ^ 31) &&
      (match items with
       | [] => true
       | t :: _ => listItemsOK t.id 0 items)
  | .compound _ items => compoundItemsOK items

def byteItemsOK : Int → List Tag → Bool
  | _, [] => true
  | i, .byte nm v :: rest => nm == .int i && intFits 1 v && byteItemsOK (i + 1) rest
  | _, _ :: _ => false

def listItemsOK (id : Nat) : Int → List Tag → Bool
  | _, [] => true
  | i, t :: rest =>
    t.name == .int i && t.id == id && payloadOK t && listItemsOK id (i + 1) rest

def compoundItemsOK : List Tag → Bool
  | [] => true
  | t :: rest => nameOKB t.name && payloadOK t && compoundItemsOK rest

end

/-- A top-level tag the codec round-trips: encodable str name, payload OK. -/
def tagOK (t : Tag) : Bool := nameOKB t.name && payloadOK t

/-! Subchunk codec (bedrock.py SubChunk). -/

/-- A block reference: name string, short data value, optional tag tree. -/
structure Block where
  name : List Nat
  dv : Int
  nbt : Option Tag

def defaultBlock : Block := ⟨[], 0, none⟩

/-- The logical 16x16x16 volume, addressed (x, y, z). -/
def Vol : Type := Fin 16 → Fin 16 → Fin 16 → Block

/-- numpy reshape(16,16,16) of a flat 4096 list in C order. -/
def reshape3 (flat : List Block) : Vol := fun a b c =>
  flat.getD (a.val * 256 + b.val * 16 + c.val) defaultBlock

/-- numpy swapaxes(1,2). -/
def swapaxes12 (v : Vol) : Vol := fun a b c => v a c b

/-- numpy .swapaxes(1,2).reshape(4096): C-order flattening, position
i = a*256 + b*16 + c holding the value at axes (a, b, c) of the input. -/
def flatten3 (v : Vol) : List Block :=
  (List.range 4096).map fun i =>
    v ⟨i / 256 % 16, Nat.mod_lt _ (by decide)⟩
      ⟨i / 16 % 16, Nat.mod_lt _ (by decide)⟩
      ⟨i % 16, Nat.mod_lt _ (by decide)⟩

/-- The code points of the Python literals "name" and "val". -/
def nmName : List Nat := [110, 97, 109, 101]

def nmVal : List Nat := [118, 97, 108]

/-- The palette NBT generated for a block by SubChunk._savePalette:
TAG_Compound("", [TAG_String("name", name), TAG_Short("val", dv)]). -/
def entryOf (b : Block) : Tag :=
  .compound (.str []) [.string (.str nmName) b.name, .short (.str nmVal) b.dv]

/-- Python: block in palette (membership by TAG.__eq__). -/
def palContains (pal : List Tag) (e : Tag) : Bool := pal.any fun p => Tag.beq p e

/-- Python: palette.index(block), the first index comparing equal. -/
def palIdx (e : Tag) : List Tag → Nat
  | [] => 0
  | p :: rest => if Tag.beq p e then 0 else palIdx e rest + 1

/-- SubChunk._savePalette's loop: first-seen deduplicated palette and, per
block, its index into the palette. -/
def savePaletteGo : List Tag → List Block → List Tag × List Nat
  | pal, [] => (pal, [])
  | pal, b :: rest =>
    let e := entryOf b
    let pal' := if palContains pal e then pal else pal ++ [e]
    let out := savePaletteGo pal' rest
    (out.1, palIdx e pal' :: out.2)

def savePalette (flat : List Block) : List Tag × List Nat := savePaletteGo [] flat

/-- Least k (searching upward from the given start, bounded by fuel) with
p ≤ 2^k.  With fuel 64 this is the exact value of
int(np.ceil(np.log2(p))) for every palette size p ≥ 1 that can occur
(p ≤ 4096; the float computation is exact on this range). -/
def clog2go (p : Nat) : Nat → Nat → Nat
  | 0, k => k
  | fuel + 1, k => if p ≤ 2 ^ k then k else clog2go p fuel (k + 1)

/-- SubChunk._saveBlocks: bitsPerBlock = max(ceil(log2(paletteSize)), 1). -/
def bitsPerBlock (paletteSize : Nat) : Nat := max (clog2go paletteSize 64 0) 1

/-- One packed word: indices or-ed in low-bits-first, built high-to-low as in
the Python loop (word <<= bpb; word |= id). -/
def packWord (bpb : Nat) (ids : List Nat) : Nat :=
  ids.foldr (fun id w => (w <<< bpb) ||| id) 0

/-- struct.pack("<B") — unsigned byte. -/
def putU1 (n : Nat) : Except Err (List Nat) :=
  if n < 256 then .ok [n] else .error .packRange

/-- struct.pack("<I") — unsigned little-endian 32-bit. -/
def putU4 (n : Nat) : Except Err (List Nat) :=
  if n < 2 ^ 32 then .ok (leBytes 4 n) else .error .packRange

/-- The word-packing loop of _saveBlocks: numWords words, each packing the
next blocksPerWord indices (the final word takes what remains). -/
def packPut (bpb bpw : Nat) : Nat → List Nat → Except Err (List Nat)
  | 0, _ => .ok []
  | n + 1, ids =>
    E.bind (putU4 (packWord bpb (ids.take bpw))) fun w =>
      E.bind (packPut bpb bpw n (ids.drop bpw)) fun rest =>
        .ok (w ++ rest)

/-- Python ceiling division -(-4096 // blocksPerWord) (// is floor division,
Int.fdiv). -/
def numWordsFor (bpw : Nat) : Nat := (-((-4096 : Int).fdiv (bpw : Int))).toNat

/-- SubChunk._saveBlocks: header byte (bitsPerBlock << 1) then the packed
words. -/
def saveBlocks (paletteSize : Nat) (ids : List Nat) : Except Err (List Nat) :=
  let bpb := bitsPerBlock paletteSize
  let bpw := 32 / bpb
  E.bind (putU1 (bpb <<< 1)) fun hdr =>
    E.bind (packPut bpb bpw (numWordsFor bpw) ids) fun words =>
      .ok (hdr ++ words)

/-- Python data[0] with data = data[1:]: IndexError on an empty buffer. -/
def byteIdx : M Nat := fun bs =>
  match bs with
  | [] => .error .indexError
  | b :: rest => .ok (b, rest)

/-- struct.unpack("<I"*n, data[:4*n]): n unsigned little-endian words. -/
def chunkWords : Nat → List Nat → List Nat
  | 0, _ => []
  | n + 1, bs => leNat (bs.take 4) :: chunkWords n (bs.drop 4)

def popWords (n : Nat) : M (List Nat) := fun bs =>
  if 4 * n ≤ bs.length then
    .ok (chunkWords n (bs.take (4 * n)), bs.drop (4 * n))
  else .error .truncated

/-- struct.unpack("<I", data[:4]): the palette length read. -/
def popU4M : M Nat := fun bs =>
  if 4 ≤ bs.length then .ok (leNat (bs.take 4), bs.drop 4) else .error .truncated

/-- Extracting blocksPerWord indices from one word by masking the low
bitsPerBlock bits and shifting right. -/
def unpackWord (bpb : Nat) : Nat → Nat → List Nat
  | 0, _ => []
  | j + 1, w => (w &&& (2 ^ bpb - 1)) :: unpackWord bpb j (w >>> bpb)

/-- SubChunk._loadBlocks: header byte giving bitsPerBlock (low flag bit
dropped), then ceil(4096 / blocksPerWord) words, unpacked in order with
padding beyond the 4096th slot discarded. -/
def loadBlocksM : M (List Nat) :=
  M.bind byteIdx fun b0 =>
    let bpb := b0 >>> 1
    if bpb = 0 then M.fail .zeroDivision
    else
      let bpw := 32 / bpb
      M.bind (popWords (numWordsFor bpw)) fun words =>
        M.pure (List.take 4096 (words.flatMap (unpackWord bpb bpw)))

/-- SubChunk._loadPalette's loop: palletLen top-level tags back to back. -/
def decodeEntries (fuel : Nat) : Nat → M (List Tag)
  | 0 => M.pure []
  | n + 1 =>
    M.bind (nbtDecode fuel) fun t =>
      M.bind (decodeEntries fuel n) fun ts =>
        M.pure (t :: ts)

/-- Encoding each palette entry with nbt.encode, appended in order. -/
def encodeEntries : List Tag → Except Err (List Nat)
  | [] => .ok []
  | t :: rest =>
    E.bind (nbtEncode t) fun b =>
      E.bind (encodeEntries rest) fun r =>
        .ok (b ++ r)

/-- TAG.__getitem__: first child of the payload whose name equals the key;
KeyError when absent. -/
def childNamed (nm : List Nat) : List Tag → Except Err Tag
  | [] => .error .keyError
  | t :: rest => if t.name = .str nm then .ok t else childNamed nm rest

/-- Block construction from a palette entry:
Block(entry["name"].payload, entry["val"].payload).  The source stores the
payloads without type checks; every entry reaching this point in the stated
theorems has the TAG_Compound(TAG_String name, TAG_Short val) shape, so the
model requires exactly that shape and flags anything else. -/
def resolveEntry (t : Tag) : Except Err Block :=
  match t with
  | .compound _ items =>
    E.bind (childNamed nmName items) fun nameTag =>
      E.bind (childNamed nmVal items) fun valTag =>
        match nameTag, valTag with
        | .string _ s, .short _ v => .ok ⟨s, v, none⟩
        | _, _ => .error .typeError
  | _ => .error .typeError

/-- The resolution loop: palette[i] per raw index (IndexError when out of
range), building the flat list of Block objects. -/
def resolveAll (palette : List Tag) : List Nat → Except Err (List Block)
  | [] => .ok []
  | i :: rest =>
    if i < palette.length then
      E.bind (resolveEntry (palette.getD i (.byte (.int 0) 0))) fun b =>
        E.bind (resolveAll palette rest) fun bs =>
          .ok (b :: bs)
    else .error .indexError

/-- SubChunk.__init__ with a buffer: version byte (must be 8), storage count
byte (must be 1), packed blocks, palette length, palette entries, index
resolution, then reshape(16,16,16).swapaxes(1,2) into the logical volume. -/
def subchunkDecode (fuel : Nat) : M Vol :=
  M.bind byteIdx fun version =>
    if version ≠ 8 then M.fail .unsupportedVersion
    else
      M.bind byteIdx fun numStorages =>
        if numStorages ≠ 1 then M.fail .unsupportedStorages
        else
          M.bind loadBlocksM fun rawIds =>
            M.bind popU4M fun palLen =>
              M.bind (decodeEntries fuel palLen) fun palette =>
                M.bind (M.liftE (resolveAll palette rawIds)) fun resolved =>
                  M.pure (swapaxes12 (reshape3 resolved))

/-- SubChunk.save: header "<BB" (version, 1), packed blocks, "<I" palette
length, palette entries encoded with nbt.encode. -/
def subchunkSave (version : Nat) (vol : Vol) : Except Err (List Nat) :=
  E.bind (putU1 version) fun hdr =>
    E.bind (putU1 1) fun st =>
      let flat := flatten3 (swapaxes12 vol)
      let pi := savePalette flat
      E.bind (saveBlocks pi.1.length pi.2) fun blocksBytes =>
        E.bind (putU4 pi.1.length) fun lenBytes =>
          E.bind (encodeEntries pi.1) fun entriesBytes =>
            .ok (hdr ++ st ++ blocksBytes ++ lenBytes ++ entriesBytes)

/-- A block whose palette entry the codec encodes and round-trips: name of
single-byte code points within the string length bound, value in the
signed 16-bit range. -/
def blockOK (b : Block) : Bool := asciiStrB b.name && intFits 2 b.dv

def volOK (v : Vol) : Prop := ∀ x y z : Fin 16, blockOK (v x y z) = true

/-- Round-trip statement for one tag payload at decoder fuel N. -/
def RTtag (N : Nat) : Prop :=
  ∀ t : Tag, payloadOK t = true → tagFuel t ≤ N →
    ∃ bs, encodePayload t = .ok bs ∧
      ∀ rest, decodeTagged N t.id t.name (bs ++ rest) = .ok (t, rest)

/-- Round-trip statement for a homogeneous list body at decoder fuel N. -/
def RTlist (N : Nat) : Prop :=
  ∀ (id : Nat) (start : Int) (items : List Tag), validTagId id = true →
    listItemsOK id start items = true → listFuel items ≤ N →
      ∃ bs, encodeItems items = .ok bs ∧
        ∀ rest,
          decodeListItems N (id : Int) items.length start (bs ++ rest) =
            .ok (items, rest)

/-- Round-trip statement for a compound body at decoder fuel N (the encoded
children followed by the terminator byte). -/
def RTcomp (N : Nat) : Prop :=
  ∀ items : List Tag, compoundItemsOK items = true → listFuel items ≤ N →
    ∃ bs, encodeCompoundItems items = .ok bs ∧
      ∀ rest, decodeCompoundItems N (bs ++ (0 :: rest)) = .ok (items, rest)

/-- p is an initial segment of l. -/
def IsPre {α : Type} (p l : List α) : Prop := ∃ t, p ++ t = l

/-- A successful read leaves a suffix of its input. -/
def Consumes {α : Type} (f : M α) : Prop :=
  ∀ bs a rest, f bs = .ok (a, rest) → ∃ xs, bs = xs ++ rest

/-- A read depends only on the bytes it consumes. -/
def MExt {α : Type} (f : M α) : Prop :=
  ∀ xs ys zs a, f (xs ++ ys) = .ok (a, ys) → f (xs ++ zs) = .ok (a, zs)

/-- Cutting the consumed bytes short makes the read fail with a struct.error
short-buffer failure (TruncatedData), whatever the cut point. -/
def MTrunc {α : Type} (f : M α) : Prop :=
  ∀ xs ys a, f (xs ++ ys) = .ok (a, ys) →
    ∀ p, IsPre p xs → p.length < xs.length → f p = .error .truncated

def Lawful {α : Type} (f : M α) : Prop := Consumes f ∧ MExt f ∧ MTrunc f

/-! Primitive reader/writer lemmas. -/

theorem M.bind_ok {α β : Type} {f : M α} {g : α → M β} {bs bs' : List Nat} {a : α}
    (h : f bs = .ok (a, bs')) : M.bind f g bs = g a bs' := by
  rw [M.bind, h]

theorem M.bind_error {α β : Type} {f : M α} {g : α → M β} {bs : List Nat} {e : Err}
    (h : f bs = .error e) : M.bind f g bs = .error e := by
  rw [M.bind, h]

theorem M.pure_apply {α : Type} (a : α) (bs : List Nat) :
    M.pure a bs = .ok (a, bs) := rfl

theorem E.bindOk {α β : Type} {x : Except Err α} {f : α → Except Err β} {a : α}
    (h : x = .ok a) : E.bind x f = f a := by
  rw [h]; rfl

theorem M.liftE_ok {α : Type} {r : Except Err α} {a : α} (h : r = .ok a)
    (bs : List Nat) : M.liftE r bs = .ok (a, bs) := by
  subst h; rfl

theorem E.bindErr {α β : Type} {x : Except Err α} {f : α → Except Err β}
    {e : Err} (h : x = .error e) : E.bind x f = .error e := by
  rw [h]; rfl

theorem M.fail_apply {α : Type} (e : Err) (bs : List Nat) :
    M.fail (α := α) e bs = .error e := rfl

theorem leBytes_length (w n : Nat) : (leBytes w n).length = w := by
  induction w generalizing n with
  | zero => rfl
  | succ w ih => simp [leBytes, ih]

theorem leNat_leBytes (w n : Nat) : leNat (leBytes w n) = n % 2 ^ (8 * w) := by
  induction w generalizing n with
  | zero => simp [leBytes, leNat, Nat.mod_one]
  | succ w ih =>
    have h256 : (2 : Nat) ^ (8 * (w + 1)) = 256 * 2 ^ (8 * w) := by
      rw [Nat.mul_add, Nat.pow_add]; ring
    rw [leBytes, leNat, ih, h256, Nat.mod_mul]

theorem leNat_lt (w : Nat) (bs : List Nat) (h : ∀ b ∈ bs, b < 256)
    (hl : bs.length = w) : leNat bs < 2 ^ (8 * w) := by
  induction bs generalizing w with
  | nil =>
    simp only [List.length_nil] at hl
    subst hl
    simp [leNat]
  | cons b rest ih =>
    cases w with
    | zero => simp at hl
    | succ w =>
      have hb : b < 256 := h b (List.mem_cons_self b rest)
      have hr : leNat rest < 2 ^ (8 * w) :=
        ih w (fun x hx => h x (List.mem_cons_of_mem b hx)) (by simpa using hl)
      have h256 : (2 : Nat) ^ (8 * (w + 1)) = 256 * 2 ^ (8 * w) := by
        rw [Nat.mul_add, Nat.pow_add]; ring
      rw [leNat, h256]
      calc b + 256 * leNat rest < 256 + 256 * leNat rest := by omega
        _ ≤ 256 * 2 ^ (8 * w) := by omega

theorem leBytes_lt_256 (w n : Nat) : ∀ b ∈ leBytes w n, b < 256 := by
  induction w generalizing n with
  | zero => simp [leBytes]
  | succ w ih =>
    intro b hb
    rw [leBytes] at hb
    rcases List.mem_cons.mp hb with h | h
    · subst h; exact Nat.mod_lt _ (by omega)
    · exact ih _ b h

theorem take_append_left {α : Type} (l rest : List α) (w : Nat)
    (h : l.length = w) : (l ++ rest).take w = l := by
  subst h; exact List.take_left l rest

theorem drop_append_left {α : Type} (l rest : List α) (w : Nat)
    (h : l.length = w) : (l ++ rest).drop w = rest := by
  subst h; exact List.drop_left l rest

theorem intFits_bounds {w : Nat} {v : Int} (h : intFits w v = true) :
    -(2 ^ (8 * w - 1) : Int) ≤ v ∧ v < (2 ^ (8 * w - 1) : Int) := by
  simp [intFits] at h; exact h

/-- The written little-endian bytes of an in-range signed value read back as
that value, leaving exactly the trailing bytes. -/
theorem popM_putInt {w : Nat} (hw : 0 < w) {v : Int} (h : intFits w v = true)
    {bs : List Nat} (hput : putInt w v = .ok bs) (rest : List Nat) :
    popM w (bs ++ rest) = .ok (v, rest) := by
  have hb := intFits_bounds h
  rw [putInt, h] at hput
  simp only [if_true] at hput
  set m : Nat := (v % (2 ^ (8 * w) : Int)).toNat with hm
  have hbs : bs = leBytes w m := ((Except.ok.injEq _ _).mp hput).symm
  have hcast : ((2 ^ (8 * w) : Nat) : Int) = (2 : Int) ^ (8 * w) := by push_cast; ring
  have hcast1 : ((2 ^ (8 * w - 1) : Nat) : Int) = (2 : Int) ^ (8 * w - 1) := by
    push_cast; ring
  have hNpos : (0 : Int) < (2 : Int) ^ (8 * w) := by positivity
  have hpow : (2 : Int) ^ (8 * w - 1) * 2 = (2 : Int) ^ (8 * w) := by
    rw [← pow_succ]; congr 1; omega
  have hmod1 : (0 : Int) ≤ v % (2 : Int) ^ (8 * w) := Int.emod_nonneg v (by positivity)
  have hmod2 : v % (2 : Int) ^ (8 * w) < (2 : Int) ^ (8 * w) := Int.emod_lt_of_pos v hNpos
  have hmI : (m : Int) = v % (2 : Int) ^ (8 * w) := by
    rw [hm]; exact Int.toNat_of_nonneg hmod1
  have hlen : bs.length = w := by rw [hbs]; exact leBytes_length w m
  rw [popM]
  have hle : w ≤ (bs ++ rest).length := by
    rw [List.length_append, hlen]; omega
  rw [if_pos hle, take_append_left bs rest w hlen, drop_append_left bs rest w hlen]
  have hleNat : leNat bs = m := by
    rw [hbs, leNat_leBytes]
    have hmlt : m < 2 ^ (8 * w) := by omega
    exact Nat.mod_eq_of_lt hmlt
  rw [hleNat]
  rcases le_or_lt 0 v with hv | hv
  · have hveq : v % (2 : Int) ^ (8 * w) = v := Int.emod_eq_of_lt hv (by omega)
    have hlt : m < 2 ^ (8 * w - 1) := by omega
    rw [toSigned, if_pos hlt]
    have : (m : Int) = v := by omega
    rw [this]
  · have hveq : v % (2 : Int) ^ (8 * w) = v + (2 : Int) ^ (8 * w) := by
      have h0 : v + (2 : Int) ^ (8 * w) = v + (2 : Int) ^ (8 * w) * 1 := by ring
      have h1 : (v + (2 : Int) ^ (8 * w) * 1) % (2 : Int) ^ (8 * w) =
          v % (2 : Int) ^ (8 * w) := Int.add_mul_emod_self_left v _ 1
      have h2 : (0 : Int) ≤ v + (2 : Int) ^ (8 * w) := by omega
      have h3 : v + (2 : Int) ^ (8 * w) < (2 : Int) ^ (8 * w) := by omega
      rw [← h1, ← h0, Int.emod_eq_of_lt h2 h3]
    have hge : ¬ m < 2 ^ (8 * w - 1) := by omega
    rw [toSigned, if_neg hge]
    rw [Except.ok.injEq, Prod.mk.injEq]
    exact ⟨by omega, rfl⟩

/-- putInt succeeds exactly on in-range values. -/
theorem putInt_ok_of_fits {w : Nat} {v : Int} (h : intFits w v = true) :
    putInt w v = .ok (leBytes w (v % (2 ^ (8 * w) : Int)).toNat) := by
  rw [putInt, h]; rfl

theorem intFits_of_nat {w : Nat} (_hw : 0 < w) (n : Nat)
    (h : n < 2 ^ (8 * w - 1)) : intFits w (n : Int) = true := by
  simp only [intFits, Bool.and_eq_true, decide_eq_true_eq]
  constructor
  · have : (0 : Int) ≤ (n : Int) := Int.ofNat_nonneg n
    have : (0 : Int) < (2 ^ (8 * w - 1) : Int) := by positivity
    omega
  · exact_mod_cast h

/-- For a nonnegative in-range value the written bytes are just the plain
little-endian bytes of the Nat. -/
theorem putInt_nat {w : Nat} (hw : 0 < w) (n : Nat) (h : n < 2 ^ (8 * w - 1)) :
    putInt w (n : Int) = .ok (leBytes w n) := by
  rw [putInt_ok_of_fits (intFits_of_nat hw n h)]
  congr 1
  have hlt : (n : Int) < (2 ^ (8 * w) : Int) := by
    have h2 : (2 : Int) ^ (8 * w - 1) * 2 = 2 ^ (8 * w) := by
      rw [← pow_succ]; congr 1; omega
    have : (n : Int) < (2 ^ (8 * w - 1) : Int) := by exact_mod_cast h
    have : (0 : Int) < (2 ^ (8 * w - 1) : Int) := by positivity
    omega
  rw [Int.emod_eq_of_lt (Int.ofNat_nonneg n) hlt, Int.toNat_ofNat]

/-! String lemmas: single-byte code points round-trip through putString and
popString. -/

theorem utf8Encode_ascii {s : List Nat} (h : ∀ c ∈ s, c < 128) :
    utf8Encode s = s := by
  induction s with
  | nil => rfl
  | cons c rest ih =>
    have hc : c < 128 := h c (List.mem_cons_self c rest)
    have hr := ih fun x hx => h x (List.mem_cons_of_mem c hx)
    rw [utf8Encode] at hr ⊢
    simp only [List.map_cons, List.flatten_cons, hr]
    rw [utf8Char, if_pos hc]
    rfl

theorem utf8DecodeF_ascii {s : List Nat} (h : ∀ c ∈ s, c < 128) :
    ∀ fuel, s.length ≤ fuel → utf8DecodeF fuel s = some s := by
  induction s with
  | nil => intro fuel _; cases fuel <;> rfl
  | cons c rest ih =>
    intro fuel hf
    cases fuel with
    | zero => simp at hf
    | succ f =>
      have hc : c < 128 := h c (List.mem_cons_self c rest)
      have hr := ih (fun x hx => h x (List.mem_cons_of_mem c hx)) f
        (by simp at hf; omega)
      rw [utf8DecodeF, if_pos hc, hr]
      rfl

theorem utf8Decode_ascii {s : List Nat} (h : ∀ c ∈ s, c < 128) :
    utf8Decode s = some s :=
  utf8DecodeF_ascii h s.length le_rfl

theorem asciiStrB_bounds {s : List Nat} (h : asciiStrB s = true) :
    (∀ c ∈ s, c < 128) ∧ s.length ≤ 32767 := by
  simp only [asciiStrB, Bool.and_eq_true, List.all_eq_true, decide_eq_true_eq] at h
  exact ⟨fun c hc => h.1 c hc, h.2⟩

/-- What putString writes for a single-byte-code-point string: the length as
two little-endian bytes, then the code points themselves. -/
theorem putString_ascii {s : List Nat} (h : asciiStrB s = true) :
    putString s = .ok (leBytes 2 s.length ++ s) := by
  obtain ⟨hch, hlen⟩ := asciiStrB_bounds h
  have hfit : s.length < 2 ^ (8 * 2 - 1) := by norm_num; omega
  rw [putString, E.bindOk (putInt_nat (by omega) s.length hfit)]
  have henc : utf8Encode s = s := utf8Encode_ascii hch
  rw [padTrunc, henc, List.take_length, Nat.sub_self, List.replicate_zero,
    List.append_nil]

theorem popString_ascii {s : List Nat} (h : asciiStrB s = true) (rest : List Nat) :
    popStringM (leBytes 2 s.length ++ (s ++ rest)) = .ok (s, rest) := by
  obtain ⟨hch, hlen⟩ := asciiStrB_bounds h
  have hfit : s.length < 2 ^ (8 * 2 - 1) := by norm_num; omega
  have hput : putInt 2 ((s.length : Nat) : Int) = .ok (leBytes 2 s.length) :=
    putInt_nat (by omega) s.length hfit
  have hpop := popM_putInt (w := 2) (by omega) (intFits_of_nat (by omega) _ hfit)
    hput (s ++ rest)
  rw [popStringM, M.bind_ok hpop]
  have hneg : ¬ ((s.length : Int) < 0) := by omega
  rw [if_neg hneg]
  have hraw : popRaw (s.length : Int).toNat (s ++ rest) = .ok (s, rest) := by
    rw [Int.toNat_ofNat, popRaw]
    have hle : s.length ≤ (s ++ rest).length := by
      rw [List.length_append]; omega
    rw [if_pos hle, take_append_left s rest _ rfl, drop_append_left s rest _ rfl]
  rw [M.bind_ok hraw, utf8Decode_ascii hch]
  rfl

/-! Dispatch-table lemmas. -/

theorem Dispatch.caseM_cls {α : Type} (k : Nat) (o n : M α) (f : Nat → M α) :
    Dispatch.caseM (.cls k) o n f = f k := rfl

theorem Dispatch.caseM_noneEntry {α : Type} (o n : M α) (f : Nat → M α) :
    Dispatch.caseM .noneEntry o n f = n := rfl

theorem Dispatch.caseM_oob {α : Type} (o n : M α) (f : Nat → M α) :
    Dispatch.caseM .oob o n f = o := rfl

theorem validTagId_cases {k : Nat} (h : validTagId k = true) :
    k = 1 ∨ k = 2 ∨ k = 3 ∨ k = 4 ∨ k = 7 ∨ k = 8 ∨ k = 9 ∨ k = 10 := by
  simp only [validTagId, Bool.or_eq_true, Nat.beq_eq_true_eq] at h
  tauto

theorem tagsIdx_valid {k : Nat} (h : validTagId k = true) :
    tagsIdx (k : Int) = .cls k := by
  rcases validTagId_cases h with h | h | h | h | h | h | h | h <;> subst h <;> decide

theorem Tag.id_valid (t : Tag) : validTagId t.id = true := by
  cases t <;> rfl

theorem Tag.id_le (t : Tag) : t.id ≤ 10 := by
  cases t <;> simp [Tag.id]

/-! Decoder step equations (decoder fuel exposed one level). -/

theorem decodeTagged_step1 (N : Nat) (nm : PyName) :
    decodeTagged (N + 1) 1 nm = M.bind (popM 1) fun v => M.pure (.byte nm v) := by
  simp [decodeTagged]

theorem decodeTagged_step2 (N : Nat) (nm : PyName) :
    decodeTagged (N + 1) 2 nm = M.bind (popM 2) fun v => M.pure (.short nm v) := by
  simp [decodeTagged]

theorem decodeTagged_step3 (N : Nat) (nm : PyName) :
    decodeTagged (N + 1) 3 nm = M.bind (popM 4) fun v => M.pure (.int nm v) := by
  simp [decodeTagged]

theorem decodeTagged_step4 (N : Nat) (nm : PyName) :
    decodeTagged (N + 1) 4 nm = M.bind (popM 8) fun v => M.pure (.long nm v) := by
  simp [decodeTagged]

theorem decodeTagged_step7 (N : Nat) (nm : PyName) :
    decodeTagged (N + 1) 7 nm =
      M.bind (popM 4) fun sz =>
        M.bind (decodeByteItems sz.toNat 0) fun items =>
          M.pure (.byteArray nm items) := by
  simp [decodeTagged]

theorem decodeTagged_step8 (N : Nat) (nm : PyName) :
    decodeTagged (N + 1) 8 nm =
      M.bind popStringM fun s => M.pure (.string nm s) := by
  simp [decodeTagged]

theorem decodeTagged_step9 (N : Nat) (nm : PyName) :
    decodeTagged (N + 1) 9 nm =
      M.bind (popM 1) fun itemID =>
        M.bind (popM 4) fun sz =>
          M.bind (decodeListItems N itemID sz.toNat 0) fun items =>
            M.pure (.list nm items) := by
  simp [decodeTagged]

theorem decodeTagged_step10 (N : Nat) (nm : PyName) :
    decodeTagged (N + 1) 10 nm =
      M.bind (decodeCompoundItems N) fun items =>
        M.pure (.compound nm items) := by
  simp [decodeTagged]

theorem decodeListItems_zero (N : Nat) (id : Int) (i : Int) :
    decodeListItems N id 0 i = M.pure [] := by
  cases N <;> simp [decodeListItems]

theorem decodeListItems_succ (N : Nat) (id : Int) (n : Nat) (i : Int) :
    decodeListItems (N + 1) id (n + 1) i =
      Dispatch.caseM (tagsIdx id) (M.fail .indexError) (M.fail .notCallable)
        fun k =>
          M.bind (decodeTagged N k (.int i)) fun t =>
            M.bind (decodeListItems N id n (i + 1)) fun rest =>
              M.pure (t :: rest) := by
  simp [decodeListItems]

theorem decodeCompoundItems_succ (N : Nat) :
    decodeCompoundItems (N + 1) =
      M.bind (popM 1) fun tagID =>
        if tagID = 0 then M.pure []
        else
          Dispatch.caseM (tagsIdx tagID) (M.fail .indexError)
            (M.fail .tagNotImplemented) fun k =>
              M.bind popStringM fun nm =>
                M.bind (decodeTagged N k (.str nm)) fun t =>
                  M.bind (decodeCompoundItems N) fun rest =>
                    M.pure (t :: rest) := by
  simp [decodeCompoundItems]

theorem popM_cons_byte (b : Nat) (rest : List Nat) :
    popM 1 (b :: rest) = .ok (toSigned 1 b, rest) := by
  rw [popM]
  have h1 : 1 ≤ (b :: rest).length := by simp
  rw [if_pos h1]
  simp [leNat]

/-! Round-trip of the NBT codec on well-formed trees. -/

theorem leBytes_one {n : Nat} (h : n < 256) : leBytes 1 n = [n] := by
  simp [leBytes, Nat.mod_eq_of_lt h]

theorem Tag.id_pos (t : Tag) : 1 ≤ t.id := by
  cases t <;> simp [Tag.id]

theorem putInt_tagId (t : Tag) : putInt 1 ((t.id : Nat) : Int) = .ok [t.id] := by
  have hle := Tag.id_le t
  rw [putInt_nat (by omega) t.id (by norm_num; omega), leBytes_one (by omega)]

theorem putInt_zero_one : putInt 1 (0 : Int) = .ok [0] := by
  have h := putInt_nat (w := 1) (by omega) 0 (by norm_num)
  rw [Nat.cast_zero] at h
  rw [h, leBytes_one (by omega)]

theorem intFits_zero_one : intFits 1 (0 : Int) = true := by
  have h := intFits_of_nat (w := 1) (by omega) 0 (by norm_num)
  rwa [Nat.cast_zero] at h

theorem putInt_zero_four : putInt 4 (0 : Int) = .ok (leBytes 4 0) := by
  have h := putInt_nat (w := 4) (by omega) 0 (by norm_num)
  rwa [Nat.cast_zero] at h

theorem intFits_zero_four : intFits 4 (0 : Int) = true := by
  have h := intFits_of_nat (w := 4) (by omega) 0 (by norm_num)
  rwa [Nat.cast_zero] at h

theorem tagFuel_pos (t : Tag) : 1 ≤ tagFuel t := by
  cases t <;> simp [tagFuel]

theorem listFuel_pos (l : List Tag) : 1 ≤ listFuel l := by
  cases l with
  | nil => simp [listFuel]
  | cons t r => simp only [listFuel]; omega

theorem byteItems_rt (items : List Tag) : ∀ start : Int,
    byteItemsOK start items = true →
    ∃ bs, encodeItems items = .ok bs ∧
      ∀ rest, decodeByteItems items.length start (bs ++ rest) = .ok (items, rest) := by
  induction items with
  | nil =>
    intro start _
    exact ⟨[], rfl, fun rest => by
      simp only [List.length_nil, List.nil_append, decodeByteItems, M.pure_apply]⟩
  | cons t r ih =>
    intro start h
    cases t with
    | byte nm v =>
      simp only [byteItemsOK, Bool.and_eq_true, beq_iff_eq] at h
      obtain ⟨⟨hnm, hv⟩, hr⟩ := h
      obtain ⟨br, hencr, hdecr⟩ := ih (start + 1) hr
      have hput := putInt_ok_of_fits hv
      refine ⟨leBytes 1 (v % (2 ^ (8 * 1) : Int)).toNat ++ br, ?_, ?_⟩
      · simp only [encodeItems, encodePayload]
        rw [E.bindOk hput, E.bindOk hencr]
      · intro rest
        have hlen : (Tag.byte nm v :: r).length = r.length + 1 := by simp
        rw [hlen, List.append_assoc]
        show decodeByteItems (r.length + 1) start _ = _
        rw [decodeByteItems]
        rw [M.bind_ok (popM_putInt (by omega) hv hput (br ++ rest))]
        rw [M.bind_ok (hdecr rest), M.pure_apply, hnm]
    | short nm v => simp [byteItemsOK] at h
    | int nm v => simp [byteItemsOK] at h
    | long nm v => simp [byteItemsOK] at h
    | byteArray nm l => simp [byteItemsOK] at h
    | string nm s => simp [byteItemsOK] at h
    | list nm l => simp [byteItemsOK] at h
    | compound nm l => simp [byteItemsOK] at h

theorem rt_main : ∀ N : Nat, RTtag N ∧ RTlist N ∧ RTcomp N := by
  intro N
  induction N with
  | zero =>
    refine ⟨fun t _ hf => ?_, fun id start items _ _ hf => ?_, fun items _ hf => ?_⟩
    · exact absurd hf (by have := tagFuel_pos t; omega)
    · exact absurd hf (by have := listFuel_pos items; omega)
    · exact absurd hf (by have := listFuel_pos items; omega)
  | succ N ih =>
    obtain ⟨ihT, ihL, ihC⟩ := ih
    refine ⟨?_, ?_, ?_⟩
    · -- RTtag (N + 1)
      intro t hok hfuel
      cases t with
      | byte nm v =>
        simp only [payloadOK] at hok
        have hput := putInt_ok_of_fits hok
        refine ⟨_, by simpa only [encodePayload] using hput, fun rest => ?_⟩
        simp only [Tag.id, Tag.name]
        rw [decodeTagged_step1, M.bind_ok (popM_putInt (by omega) hok hput rest),
          M.pure_apply]
      | short nm v =>
        simp only [payloadOK] at hok
        have hput := putInt_ok_of_fits hok
        refine ⟨_, by simpa only [encodePayload] using hput, fun rest => ?_⟩
        simp only [Tag.id, Tag.name]
        rw [decodeTagged_step2, M.bind_ok (popM_putInt (by omega) hok hput rest),
          M.pure_apply]
      | int nm v =>
        simp only [payloadOK] at hok
        have hput := putInt_ok_of_fits hok
        refine ⟨_, by simpa only [encodePayload] using hput, fun rest => ?_⟩
        simp only [Tag.id, Tag.name]
        rw [decodeTagged_step3, M.bind_ok (popM_putInt (by omega) hok hput rest),
          M.pure_apply]
      | long nm v =>
        simp only [payloadOK] at hok
        have hput := putInt_ok_of_fits hok
        refine ⟨_, by simpa only [encodePayload] using hput, fun rest => ?_⟩
        simp only [Tag.id, Tag.name]
        rw [decodeTagged_step4, M.bind_ok (popM_putInt (by omega) hok hput rest),
          M.pure_apply]
      | string nm s =>
        simp only [payloadOK] at hok
        refine ⟨_, by simpa only [encodePayload] using putString_ascii hok,
          fun rest => ?_⟩
        simp only [Tag.id, Tag.name]
        rw [decodeTagged_step8, List.append_assoc,
          M.bind_ok (popString_ascii hok rest), M.pure_apply]
      | byteArray nm items =>
        simp only [payloadOK, Bool.and_eq_true, decide_eq_true_eq] at hok
        obtain ⟨hlen, hitems⟩ := hok
        obtain ⟨body, hencb, hdecb⟩ := byteItems_rt items 0 hitems
        have hlen31 : items.length < 2 ^ (8 * 4 - 1) := by norm_num; omega
        have hput4 := putInt_nat (w := 4) (by omega) items.length hlen31
        refine ⟨leBytes 4 items.length ++ body, ?_, fun rest => ?_⟩
        · simp only [encodePayload]
          rw [E.bindOk hput4, E.bindOk hencb]
        · simp only [Tag.id, Tag.name]
          rw [decodeTagged_step7, List.append_assoc,
            M.bind_ok (popM_putInt (by omega)
              (intFits_of_nat (by omega) _ hlen31) hput4 (body ++ rest))]
          rw [Int.toNat_ofNat, M.bind_ok (hdecb rest), M.pure_apply]
      | list nm items =>
        simp only [payloadOK, Bool.and_eq_true, decide_eq_true_eq] at hok
        obtain ⟨hlen, hitems⟩ := hok
        cases items with
        | nil =>
          refine ⟨[0] ++ leBytes 4 0, ?_, fun rest => ?_⟩
          · simp only [encodePayload]
            rw [E.bindOk putInt_zero_one, E.bindOk putInt_zero_four]
          · have hid9 : Tag.id (Tag.list nm ([] : List Tag)) = 9 := rfl
            have hnm9 : Tag.name (Tag.list nm ([] : List Tag)) = nm := rfl
            rw [hid9, hnm9, decodeTagged_step9, List.append_assoc,
              M.bind_ok (popM_putInt (by omega) intFits_zero_one putInt_zero_one
                (leBytes 4 0 ++ rest))]
            rw [M.bind_ok (popM_putInt (by omega) intFits_zero_four
              putInt_zero_four rest)]
            have hz : decodeListItems N 0 (Int.toNat 0) 0 rest = .ok ([], rest) := by
              rw [Int.toNat_zero, decodeListItems_zero, M.pure_apply]
            rw [M.bind_ok hz, M.pure_apply]
        | cons t0 r =>
          have hfuelL : listFuel (t0 :: r) ≤ N := by
            simp only [tagFuel] at hfuel; omega
          obtain ⟨body, hencb, hdecb⟩ :=
            ihL t0.id 0 (t0 :: r) (Tag.id_valid t0) hitems hfuelL
          have hlen31 : (t0 :: r).length < 2 ^ (8 * 4 - 1) := by
            simp only [List.length_cons] at hlen ⊢
            norm_num
            omega
          have hput4 := putInt_nat (w := 4) (by omega) (t0 :: r).length hlen31
          have hfit1 : intFits 1 ((t0.id : Nat) : Int) = true :=
            intFits_of_nat (by omega) _
              (by have h10 := Tag.id_le t0; norm_num; omega)
          refine ⟨[t0.id] ++ leBytes 4 (t0 :: r).length ++ body, ?_, fun rest => ?_⟩
          · simp only [encodePayload]
            rw [E.bindOk (putInt_tagId t0), E.bindOk hput4, E.bindOk hencb]
          · have hid9 : Tag.id (Tag.list nm (t0 :: r)) = 9 := rfl
            have hnm9 : Tag.name (Tag.list nm (t0 :: r)) = nm := rfl
            rw [hid9, hnm9, decodeTagged_step9, List.append_assoc, List.append_assoc,
              M.bind_ok (popM_putInt (by omega) hfit1 (putInt_tagId t0) _)]
            rw [M.bind_ok (popM_putInt (by omega)
              (intFits_of_nat (by omega) _ hlen31) hput4 (body ++ rest))]
            rw [Int.toNat_ofNat, M.bind_ok (hdecb rest), M.pure_apply]
      | compound nm items =>
        simp only [payloadOK] at hok
        have hfuelC : listFuel items ≤ N := by
          simp only [tagFuel] at hfuel; omega
        obtain ⟨body, hencb, hdecb⟩ := ihC items hok hfuelC
        refine ⟨body ++ [0], ?_, fun rest => ?_⟩
        · simp only [encodePayload]
          rw [E.bindOk hencb, E.bindOk putInt_zero_one]
        · simp only [Tag.id, Tag.name]
          have hsplit : (body ++ [0]) ++ rest = body ++ (0 :: rest) := by
            rw [List.append_assoc]; rfl
          rw [decodeTagged_step10, hsplit, M.bind_ok (hdecb rest), M.pure_apply]
    · -- RTlist (N + 1)
      intro id start items hvalid hok hfuel
      cases items with
      | nil =>
        exact ⟨[], rfl, fun rest => by
          rw [List.nil_append, List.length_nil, decodeListItems_zero, M.pure_apply]⟩
      | cons t r =>
        simp only [listItemsOK, Bool.and_eq_true, beq_iff_eq, Nat.beq_eq_true_eq]
          at hok
        obtain ⟨⟨⟨hnm, hid⟩, hpt⟩, hr⟩ := hok
        have hfuels : tagFuel t ≤ N ∧ listFuel r ≤ N := by
          simp only [listFuel] at hfuel
          have h1 := listFuel_pos r
          have h2 := tagFuel_pos t
          omega
        obtain ⟨bt, henct, hdect⟩ := ihT t hpt hfuels.1
        obtain ⟨br, hencr, hdecr⟩ := ihL id (start + 1) r hvalid hr hfuels.2
        refine ⟨bt ++ br, ?_, fun rest => ?_⟩
        · simp only [encodeItems]
          rw [E.bindOk henct, E.bindOk hencr]
        · have hlen : (t :: r).length = r.length + 1 := by simp
          rw [hlen, List.append_assoc, decodeListItems_succ, tagsIdx_valid hvalid,
            Dispatch.caseM_cls]
          have hdect2 := hdect (br ++ rest)
          rw [hid, hnm] at hdect2
          rw [M.bind_ok hdect2, M.bind_ok (hdecr rest), M.pure_apply]
    · -- RTcomp (N + 1)
      intro items hok hfuel
      cases items with
      | nil =>
        refine ⟨[], rfl, fun rest => ?_⟩
        have hpop0 : popM 1 (0 :: rest) = .ok ((0 : Int), rest) := by
          rw [popM_cons_byte]
          norm_num [toSigned]
        rw [List.nil_append, decodeCompoundItems_succ, M.bind_ok hpop0]
        rw [if_pos rfl, M.pure_apply]
      | cons t r =>
        simp only [compoundItemsOK, Bool.and_eq_true] at hok
        obtain ⟨⟨hnm, hpt⟩, hr⟩ := hok
        have hfuels : tagFuel t ≤ N ∧ listFuel r ≤ N := by
          simp only [listFuel] at hfuel
          have h1 := listFuel_pos r
          have h2 := tagFuel_pos t
          omega
        obtain ⟨bt, henct, hdect⟩ := ihT t hpt hfuels.1
        obtain ⟨br, hencr, hdecr⟩ := ihC r hr hfuels.2
        cases hn : t.name with
        | int i => rw [hn] at hnm; simp [nameOKB] at hnm
        | str s =>
          rw [hn] at hnm
          simp only [nameOKB] at hnm
          refine ⟨[t.id] ++ (leBytes 2 s.length ++ s) ++ bt ++ br, ?_, fun rest => ?_⟩
          · simp only [encodeCompoundItems]
            rw [E.bindOk (putInt_tagId t), hn]
            show E.bind (putString s) _ = _
            rw [E.bindOk (putString_ascii hnm), E.bindOk henct, E.bindOk hencr]
          · rw [decodeCompoundItems_succ]
            have hsplit : ([t.id] ++ (leBytes 2 s.length ++ s) ++ bt ++ br) ++
                (0 :: rest) =
                [t.id] ++ (leBytes 2 s.length ++
                  (s ++ (bt ++ (br ++ (0 :: rest))))) := by
              simp [List.append_assoc]
            rw [hsplit]
            rw [M.bind_ok (popM_putInt (by omega)
              (intFits_of_nat (by omega) t.id (by have := Tag.id_le t; norm_num; omega))
              (putInt_tagId t) _)]
            have hne : ¬ ((t.id : Int) = 0) := by
              have := Tag.id_pos t
              omega
            rw [if_neg hne, tagsIdx_valid (Tag.id_valid t), Dispatch.caseM_cls]
            rw [M.bind_ok (popString_ascii hnm (bt ++ (br ++ (0 :: rest))))]
            have hdect2 := hdect (br ++ (0 :: rest))
            rw [hn] at hdect2
            rw [M.bind_ok hdect2, M.bind_ok (hdecr rest), M.pure_apply]

/-- Top-level round-trip: nbt.encode then nbt.decode is the identity on
well-formed tags (name and discriminant byte included), for any decoder fuel
of at least the tree's recursion depth. -/
theorem nbt_rt (t : Tag) (hok : tagOK t = true) (N : Nat) (hf : tagFuel t ≤ N) :
    ∃ bs, nbtEncode t = .ok bs ∧ 2 ≤ bs.length ∧
      ∀ rest, nbtDecode N (bs ++ rest) = .ok (t, rest) := by
  simp only [tagOK, Bool.and_eq_true] at hok
  obtain ⟨hnm, hpl⟩ := hok
  obtain ⟨pB, hencp, hdecp⟩ := (rt_main N).1 t hpl hf
  cases hn : t.name with
  | int i => rw [hn] at hnm; simp [nameOKB] at hnm
  | str s =>
    rw [hn] at hnm
    simp only [nameOKB] at hnm
    have hfit1 : intFits 1 ((t.id : Nat) : Int) = true :=
      intFits_of_nat (by omega) _
        (by have h10 := Tag.id_le t; norm_num; omega)
    refine ⟨[t.id] ++ (leBytes 2 s.length ++ s) ++ pB, ?_,
      by simp [leBytes_length]; omega, fun rest => ?_⟩
    · rw [nbtEncode, E.bindOk (putInt_tagId t), hn]
      show E.bind (putString s) _ = _
      rw [E.bindOk (putString_ascii hnm), E.bindOk hencp]
    · have hsplit : ([t.id] ++ (leBytes 2 s.length ++ s) ++ pB) ++ rest =
          [t.id] ++ (leBytes 2 s.length ++ (s ++ (pB ++ rest))) := by
        simp [List.append_assoc]
      rw [nbtDecode, hsplit,
        M.bind_ok (popM_putInt (by omega) hfit1 (putInt_tagId t) _),
        tagsIdx_valid (Tag.id_valid t), Dispatch.caseM_cls,
        M.bind_ok (popString_ascii hnm (pB ++ rest))]
      have hd := hdecp rest
      rw [hn] at hd
      exact hd

/-! Lawfulness (consumption, extension, truncation) of the readers. -/

theorem isPre_split_left {α : Type} {p xs ys : List α} (h : IsPre p (xs ++ ys))
    (hl : p.length ≤ xs.length) : IsPre p xs := by
  obtain ⟨t, ht⟩ := h
  have h1 : (p ++ t).take p.length = p := List.take_left p t
  rw [ht, List.take_append_of_le_length hl] at h1
  have h2 : xs.take p.length ++ xs.drop p.length = xs :=
    List.take_append_drop p.length xs
  rw [h1] at h2
  exact ⟨xs.drop p.length, h2⟩

theorem isPre_split_right {α : Type} {p xs ys : List α} (h : IsPre p (xs ++ ys))
    (hl : xs.length ≤ p.length) : ∃ q, p = xs ++ q ∧ IsPre q ys := by
  obtain ⟨t, ht⟩ := h
  have h1 : p.take xs.length = xs := by
    have ha : (p ++ t).take xs.length = p.take xs.length :=
      List.take_append_of_le_length hl
    rw [ht, List.take_left] at ha
    exact ha.symm
  have h2 : p.take xs.length ++ p.drop xs.length = p :=
    List.take_append_drop xs.length p
  rw [h1] at h2
  refine ⟨p.drop xs.length, h2.symm, t, ?_⟩
  have h3 := ht
  rw [← h2, List.append_assoc] at h3
  exact List.append_cancel_left h3

theorem lawful_pure {α : Type} (a : α) : Lawful (M.pure a) := by
  refine ⟨?_, ?_, ?_⟩
  · intro bs b rest h
    simp only [M.pure, Except.ok.injEq, Prod.mk.injEq] at h
    exact ⟨[], by rw [List.nil_append, h.2]⟩
  · intro xs ys zs a2 h
    simp only [M.pure, Except.ok.injEq, Prod.mk.injEq] at h
    have hx : xs = [] := by
      have h3 := congrArg List.length h.2
      simp at h3
      exact h3
    rw [hx, List.nil_append, M.pure, h.1]
  · intro xs ys a2 h p hp hl
    simp only [M.pure, Except.ok.injEq, Prod.mk.injEq] at h
    have hx : xs = [] := by
      have h3 := congrArg List.length h.2
      simp at h3
      exact h3
    rw [hx] at hl
    simp at hl

theorem lawful_fail {α : Type} (e : Err) : Lawful (M.fail (α := α) e) := by
  refine ⟨?_, ?_, ?_⟩
  · intro bs b rest h
    rw [M.fail] at h
    exact absurd h (by simp)
  · intro xs ys zs a2 h
    rw [M.fail] at h
    exact absurd h (by simp)
  · intro xs ys a2 h
    rw [M.fail] at h
    exact absurd h (by simp)

theorem lawful_bind {α β : Type} {f : M α} {g : α → M β} (hf : Lawful f)
    (hg : ∀ a, Lawful (g a)) : Lawful (M.bind f g) := by
  obtain ⟨hfC, hfE, hfT⟩ := hf
  refine ⟨?_, ?_, ?_⟩
  · intro bs b rest h
    rw [M.bind] at h
    cases hfb : f bs with
    | error e => rw [hfb] at h; exact absurd h (by simp)
    | ok p =>
      rw [hfb] at h
      obtain ⟨a, mid⟩ := p
      obtain ⟨xs1, hxs1⟩ := hfC bs a mid hfb
      obtain ⟨xs2, hxs2⟩ := (hg a).1 mid b rest h
      exact ⟨xs1 ++ xs2, by rw [hxs1, hxs2, List.append_assoc]⟩
  · intro xs ys zs b h
    rw [M.bind] at h ⊢
    cases hfb : f (xs ++ ys) with
    | error e => rw [hfb] at h; exact absurd h (by simp)
    | ok p =>
      rw [hfb] at h
      obtain ⟨a, mid⟩ := p
      obtain ⟨xs1, hxs1⟩ := hfC _ a mid hfb
      obtain ⟨xs2, hxs2⟩ := (hg a).1 mid b ys h
      have hxseq : xs = xs1 ++ xs2 :=
        List.append_cancel_right
          (show xs ++ ys = (xs1 ++ xs2) ++ ys by
            rw [hxs1, hxs2, ← List.append_assoc])
      have hf1 : f (xs1 ++ (xs2 ++ ys)) = .ok (a, xs2 ++ ys) := by
        have hfb2 := hfb
        rw [hxs1, hxs2] at hfb2
        exact hfb2
      have hf2 : f (xs1 ++ (xs2 ++ zs)) = .ok (a, xs2 ++ zs) :=
        hfE xs1 (xs2 ++ ys) (xs2 ++ zs) a hf1
      have hg1 : g a (xs2 ++ ys) = .ok (b, ys) := hxs2 ▸ h
      have hg2 : g a (xs2 ++ zs) = .ok (b, zs) := (hg a).2.1 xs2 ys zs b hg1
      rw [hxseq, List.append_assoc, hf2]
      exact hg2
  · intro xs ys b h p hp hl
    rw [M.bind] at h ⊢
    cases hfb : f (xs ++ ys) with
    | error e => rw [hfb] at h; exact absurd h (by simp)
    | ok q =>
      rw [hfb] at h
      obtain ⟨a, mid⟩ := q
      obtain ⟨xs1, hxs1⟩ := hfC _ a mid hfb
      obtain ⟨xs2, hxs2⟩ := (hg a).1 mid b ys h
      have hxseq : xs = xs1 ++ xs2 :=
        List.append_cancel_right
          (show xs ++ ys = (xs1 ++ xs2) ++ ys by
            rw [hxs1, hxs2, ← List.append_assoc])
      have hf1 : f (xs1 ++ (xs2 ++ ys)) = .ok (a, xs2 ++ ys) := by
        have hfb2 := hfb
        rw [hxs1, hxs2] at hfb2
        exact hfb2
      have hg1 : g a (xs2 ++ ys) = .ok (b, ys) := hxs2 ▸ h
      rcases lt_or_le p.length xs1.length with hcase | hcase
      · -- truncation inside f's bytes
        have hpre1 : IsPre p xs1 := by
          rw [hxseq] at hp
          exact isPre_split_left hp (by omega)
        rw [hfT xs1 (xs2 ++ ys) a hf1 p hpre1 hcase]
      · -- f succeeds on p, truncation inside g's bytes
        rw [hxseq] at hp
        obtain ⟨q, hq, hqpre⟩ := isPre_split_right hp hcase
        have hql : q.length < xs2.length := by
          have := congrArg List.length hq
          rw [hxseq] at hl
          simp at this hl ⊢
          omega
        have hfp : f (xs1 ++ q) = .ok (a, q) := hfE xs1 (xs2 ++ ys) q a hf1
        rw [hq, hfp]
        exact (hg a).2.2 xs2 ys b hg1 q hqpre hql

theorem lawful_ite {α : Type} (c : Prop) [Decidable c] {f g : M α}
    (hf : Lawful f) (hg : Lawful g) : Lawful (if c then f else g) := by
  split
  · exact hf
  · exact hg

theorem lawful_caseM {α : Type} (d : Dispatch) {o n : M α} {f : Nat → M α}
    (ho : Lawful o) (hn : Lawful n) (hf : ∀ k, Lawful (f k)) :
    Lawful (Dispatch.caseM d o n f) := by
  cases d with
  | oob => exact ho
  | noneEntry => exact hn
  | cls k => exact hf k

theorem lawful_liftOpt {α : Type} (o : Option α) (e : Err) :
    Lawful (M.liftOpt o e) := by
  cases o with
  | none => exact lawful_fail e
  | some a => exact lawful_pure a

theorem lawful_popM (w : Nat) : Lawful (popM w) := by
  refine ⟨?_, ?_, ?_⟩
  · intro bs a rest h
    rw [popM] at h
    split at h
    · simp only [Except.ok.injEq, Prod.mk.injEq] at h
      exact ⟨bs.take w, by rw [← h.2]; exact (List.take_append_drop w bs).symm⟩
    · exact absurd h (by simp)
  · intro xs ys zs a h
    rw [popM] at h ⊢
    split at h
    case isTrue hle =>
      simp only [Except.ok.injEq, Prod.mk.injEq] at h
      have hlen2 := congrArg List.length h.2
      rw [List.length_drop, List.length_append] at hlen2
      rw [List.length_append] at hle
      have hxl : xs.length = w := by omega
      have hle2 : w ≤ (xs ++ zs).length := by rw [List.length_append]; omega
      rw [if_pos hle2, take_append_left xs zs w hxl, drop_append_left xs zs w hxl]
      rw [take_append_left xs ys w hxl] at h
      rw [← h.1]
    case isFalse => exact absurd h (by simp)
  · intro xs ys a h p hp hl
    rw [popM] at h ⊢
    split at h
    case isTrue hle =>
      simp only [Except.ok.injEq, Prod.mk.injEq] at h
      have hlen2 := congrArg List.length h.2
      rw [List.length_drop, List.length_append] at hlen2
      rw [List.length_append] at hle
      have hxl : xs.length = w := by omega
      rw [if_neg (by omega)]
    case isFalse => exact absurd h (by simp)

theorem lawful_popRaw (n : Nat) : Lawful (popRaw n) := by
  refine ⟨?_, ?_, ?_⟩
  · intro bs a rest h
    rw [popRaw] at h
    split at h
    · simp only [Except.ok.injEq, Prod.mk.injEq] at h
      exact ⟨bs.take n, by rw [← h.2]; exact (List.take_append_drop n bs).symm⟩
    · exact absurd h (by simp)
  · intro xs ys zs a h
    rw [popRaw] at h ⊢
    split at h
    case isTrue hle =>
      simp only [Except.ok.injEq, Prod.mk.injEq] at h
      have hlen2 := congrArg List.length h.2
      rw [List.length_drop, List.length_append] at hlen2
      rw [List.length_append] at hle
      have hxl : xs.length = n := by omega
      have hle2 : n ≤ (xs ++ zs).length := by rw [List.length_append]; omega
      rw [if_pos hle2, take_append_left xs zs n hxl, drop_append_left xs zs n hxl]
      rw [take_append_left xs ys n hxl] at h
      rw [← h.1]
    case isFalse => exact absurd h (by simp)
  · intro xs ys a h p hp hl
    rw [popRaw] at h ⊢
    split at h
    case isTrue hle =>
      simp only [Except.ok.injEq, Prod.mk.injEq] at h
      have hlen2 := congrArg List.length h.2
      rw [List.length_drop, List.length_append] at hlen2
      rw [List.length_append] at hle
      have hxl : xs.length = n := by omega
      rw [if_neg (by omega)]
    case isFalse => exact absurd h (by simp)

theorem lawful_popStringM : Lawful popStringM := by
  rw [popStringM]
  refine lawful_bind (lawful_popM 2) fun sz => ?_
  refine lawful_ite _ (lawful_fail _) ?_
  exact lawful_bind (lawful_popRaw _) fun raw => lawful_liftOpt _ _

theorem lawful_decodeByteItems (n : Nat) : ∀ i : Int, Lawful (decodeByteItems n i) := by
  induction n with
  | zero => intro i; exact lawful_pure []
  | succ n ih =>
    intro i
    rw [decodeByteItems]
    exact lawful_bind (lawful_popM 1) fun v =>
      lawful_bind (ih (i + 1)) fun rest => lawful_pure _

theorem lawful_decode : ∀ N : Nat,
    (∀ id nm, Lawful (decodeTagged N id nm)) ∧
    (∀ id n i, Lawful (decodeListItems N id n i)) ∧
    Lawful (decodeCompoundItems N) := by
  intro N
  induction N with
  | zero =>
    refine ⟨fun id nm => ?_, fun id n i => ?_, ?_⟩
    · rw [show decodeTagged 0 id nm = M.fail .fuelOut from by simp [decodeTagged]]
      exact lawful_fail _
    · cases n with
      | zero =>
        rw [decodeListItems_zero]
        exact lawful_pure []
      | succ n =>
        rw [show decodeListItems 0 id (n + 1) i = M.fail .fuelOut from by
          simp [decodeListItems]]
        exact lawful_fail _
    · rw [show decodeCompoundItems 0 = M.fail .fuelOut from by
        simp [decodeCompoundItems]]
      exact lawful_fail _
  | succ N ih =>
    obtain ⟨ihT, ihL, ihC⟩ := ih
    refine ⟨fun id nm => ?_, fun id n i => ?_, ?_⟩
    · rw [decodeTagged]
      refine lawful_ite _ (lawful_bind (lawful_popM 1) fun v => lawful_pure _) ?_
      refine lawful_ite _ (lawful_bind (lawful_popM 2) fun v => lawful_pure _) ?_
      refine lawful_ite _ (lawful_bind (lawful_popM 4) fun v => lawful_pure _) ?_
      refine lawful_ite _ (lawful_bind (lawful_popM 8) fun v => lawful_pure _) ?_
      refine lawful_ite _ (lawful_bind (lawful_popM 4) fun sz =>
        lawful_bind (lawful_decodeByteItems _ _) fun items => lawful_pure _) ?_
      refine lawful_ite _ (lawful_bind lawful_popStringM fun s => lawful_pure _) ?_
      refine lawful_ite _ (lawful_bind (lawful_popM 1) fun itemID =>
        lawful_bind (lawful_popM 4) fun sz =>
          lawful_bind (ihL _ _ _) fun items => lawful_pure _) ?_
      exact lawful_bind ihC fun items => lawful_pure _
    · cases n with
      | zero =>
        rw [decodeListItems_zero]
        exact lawful_pure []
      | succ n =>
        rw [decodeListItems_succ]
        exact lawful_caseM _ (lawful_fail _) (lawful_fail _) fun k =>
          lawful_bind (ihT _ _) fun t =>
            lawful_bind (ihL _ _ _) fun rest => lawful_pure _
    · rw [decodeCompoundItems_succ]
      exact lawful_bind (lawful_popM 1) fun tagID =>
        lawful_ite _ (lawful_pure [])
          (lawful_caseM _ (lawful_fail _) (lawful_fail _) fun k =>
            lawful_bind lawful_popStringM fun nm =>
              lawful_bind (ihT _ _) fun t =>
                lawful_bind ihC fun rest => lawful_pure _)

theorem lawful_nbtDecode (N : Nat) : Lawful (nbtDecode N) := by
  rw [nbtDecode]
  exact lawful_bind (lawful_popM 1) fun tagID =>
    lawful_caseM _ (lawful_fail _) (lawful_fail _) fun k =>
      lawful_bind lawful_popStringM fun nm => (lawful_decode N).1 k (.str nm)

/-! Truncation: decoding a valid buffer missing its final byte raises the
short-read struct.error, never a partial result. -/

theorem isPre_dropLast {α : Type} (l : List α) (h : l ≠ []) : IsPre l.dropLast l :=
  ⟨[l.getLast h], List.dropLast_append_getLast h⟩

/-- Truncating the encoding of any well-formed tag by its last byte makes
nbt.decode fail with the short-read error. -/
theorem nbt_trunc (t : Tag) (hok : tagOK t = true) (N : Nat) (hf : tagFuel t ≤ N) :
    ∃ bs, nbtEncode t = .ok bs ∧
      nbtDecode N bs.dropLast = .error .truncated := by
  obtain ⟨bs, henc, hlen, hdec⟩ := nbt_rt t hok N hf
  have hne : bs ≠ [] := by
    intro hcon
    rw [hcon] at hlen
    simp at hlen
  refine ⟨bs, henc, ?_⟩
  exact (lawful_nbtDecode N).2.2 bs [] t (hdec []) bs.dropLast
    (isPre_dropLast bs hne)
    (by rw [List.length_dropLast]; have := List.length_pos.mpr hne; omega)

theorem decodeStream_ne_nil {sf fuel : Nat} {bs : List Nat} (h : bs ≠ []) :
    decodeStream (sf + 1) fuel bs =
      E.bind (nbtDecode fuel bs) fun p =>
        E.bind (decodeStream sf fuel p.2) fun ts =>
          .ok (p.1 :: ts) := by
  cases bs with
  | nil => exact absurd rfl h
  | cons b bs => simp [decodeStream]

/-- A stream of well-formed tags encodes to a buffer whose one-byte
truncation makes the stream decoder fail with the short-read error. -/
theorem stream_trunc : ∀ ts : List Tag, ts ≠ [] →
    (∀ t ∈ ts, tagOK t = true) → ∀ N : Nat, (∀ t ∈ ts, tagFuel t ≤ N) →
    ∀ sf : Nat, ts.length ≤ sf →
    ∃ bs, encodeStream ts = .ok bs ∧ bs ≠ [] ∧
      decodeStream sf N bs.dropLast = .error .truncated := by
  intro ts
  induction ts with
  | nil => intro hcon; exact absurd rfl hcon
  | cons t r ih =>
    intro _ hok N hf sf hsf
    obtain ⟨bt, henct, hlent, hdect⟩ :=
      nbt_rt t (hok t (List.mem_cons_self t r)) N (hf t (List.mem_cons_self t r))
    have hbt_ne : bt ≠ [] := by
      intro hcon; rw [hcon] at hlent; simp at hlent
    obtain ⟨sf', hsf'⟩ : ∃ sf', sf = sf' + 1 := by
      cases sf with
      | zero => simp at hsf
      | succ sf' => exact ⟨sf', rfl⟩
    subst hsf'
    cases hr : r with
    | nil =>
      refine ⟨bt ++ [], ?_, by simp [hbt_ne], ?_⟩
      · rw [encodeStream, E.bindOk henct]
        rfl
      · rw [List.append_nil]
        have htr : nbtDecode N bt.dropLast = .error .truncated :=
          (lawful_nbtDecode N).2.2 bt [] t (hdect []) bt.dropLast
            (isPre_dropLast bt hbt_ne)
            (by rw [List.length_dropLast]; have := List.length_pos.mpr hbt_ne; omega)
        have hdne : bt.dropLast ≠ [] := by
          intro hcon
          have := congrArg List.length hcon
          rw [List.length_dropLast] at this
          simp at this
          omega
        rw [decodeStream_ne_nil hdne, E.bindErr htr]
    | cons t2 r2 =>
      have hrne : r ≠ [] := by rw [hr]; simp
      rw [← hr]
      obtain ⟨br, hencr, hbrne, hdecr⟩ := ih hrne
        (fun u hu => hok u (List.mem_cons_of_mem t hu)) N
        (fun u hu => hf u (List.mem_cons_of_mem t hu)) sf'
        (by rw [hr] at hsf ⊢; simp at hsf ⊢; omega)
      refine ⟨bt ++ br, ?_, by simp [hbt_ne], ?_⟩
      · rw [encodeStream, E.bindOk henct, E.bindOk hencr]
      · rw [List.dropLast_append_of_ne_nil bt hbrne]
        have hne2 : bt ++ br.dropLast ≠ [] := by simp [hbt_ne]
        rw [decodeStream_ne_nil hne2, E.bindOk (hdect br.dropLast)]
        rw [E.bindErr hdecr]

/-- Palette entries (back-to-back top-level tags read with a count) encode,
decode back, and fail with the short-read error when cut by one byte. -/
theorem entries_all : ∀ pal : List Tag, (∀ t ∈ pal, tagOK t = true) →
    ∀ N : Nat, (∀ t ∈ pal, tagFuel t ≤ N) →
    ∃ bs, encodeEntries pal = .ok bs ∧
      (∀ rest, decodeEntries N pal.length (bs ++ rest) = .ok (pal, rest)) ∧
      (pal ≠ [] → bs ≠ [] ∧
        decodeEntries N pal.length bs.dropLast = .error .truncated) := by
  intro pal
  induction pal with
  | nil =>
    intro _ N _
    exact ⟨[], rfl, fun rest => by
      rw [List.nil_append, List.length_nil, decodeEntries, M.pure_apply],
      fun hcon => absurd rfl hcon⟩
  | cons t r ih =>
    intro hok N hf
    obtain ⟨bt, henct, hlent, hdect⟩ :=
      nbt_rt t (hok t (List.mem_cons_self t r)) N (hf t (List.mem_cons_self t r))
    have hbt_ne : bt ≠ [] := by
      intro hcon; rw [hcon] at hlent; simp at hlent
    obtain ⟨br, hencr, hdecr, htrunc⟩ := ih
      (fun u hu => hok u (List.mem_cons_of_mem t hu)) N
      (fun u hu => hf u (List.mem_cons_of_mem t hu))
    refine ⟨bt ++ br, ?_, fun rest => ?_, fun _ => ⟨by simp [hbt_ne], ?_⟩⟩
    · rw [encodeEntries, E.bindOk henct, E.bindOk hencr]
    · have hlen : (t :: r).length = r.length + 1 := by simp
      rw [hlen, List.append_assoc, decodeEntries,
        M.bind_ok (hdect (br ++ rest)), M.bind_ok (hdecr rest), M.pure_apply]
    · rcases eq_or_ne r [] with hr | hrne
      · subst hr
        have hbr : br = [] := by
          simpa [encodeEntries] using hencr.symm
        have htr : nbtDecode N bt.dropLast = .error .truncated :=
          (lawful_nbtDecode N).2.2 bt [] t (hdect []) bt.dropLast
            (isPre_dropLast bt hbt_ne)
            (by rw [List.length_dropLast]; have := List.length_pos.mpr hbt_ne; omega)
        rw [hbr, List.append_nil]
        simp only [List.length_cons, List.length_nil]
        rw [decodeEntries, M.bind_error htr]
      · obtain ⟨hbrne, htr⟩ := htrunc hrne
        simp only [List.length_cons]
        rw [List.dropLast_append_of_ne_nil bt hbrne, decodeEntries,
          M.bind_ok (hdect br.dropLast), M.bind_error htr]

/-! Bit packing: words pack indices low-bits-first and unpack to the same
sequence. -/

theorem packWord_nil (bpb : Nat) : packWord bpb [] = 0 := rfl

theorem packWord_cons (bpb a : Nat) (ids : List Nat) :
    packWord bpb (a :: ids) = ((packWord bpb ids) <<< bpb) ||| a := rfl

theorem packWord_cons_arith (bpb a : Nat) (ids : List Nat) (ha : a < 2 ^ bpb) :
    packWord bpb (a :: ids) = packWord bpb ids * 2 ^ bpb + a := by
  rw [packWord_cons, Nat.shiftLeft_eq, Nat.mul_comm (packWord bpb ids)]
  exact (Nat.mul_add_lt_is_or ha (packWord bpb ids)).symm

theorem packWord_lt (bpb : Nat) (ids : List Nat) (hb : ∀ a ∈ ids, a < 2 ^ bpb) :
    packWord bpb ids < 2 ^ (bpb * ids.length) := by
  induction ids with
  | nil => rw [packWord_nil]; positivity
  | cons a rest ih =>
    have ha : a < 2 ^ bpb := hb a (List.mem_cons_self a rest)
    have hr := ih fun x hx => hb x (List.mem_cons_of_mem a hx)
    rw [packWord_cons_arith bpb a rest ha]
    have h1 : packWord bpb rest * 2 ^ bpb + a < (packWord bpb rest + 1) * 2 ^ bpb := by
      rw [Nat.add_mul, Nat.one_mul]
      omega
    have h2 : (packWord bpb rest + 1) * 2 ^ bpb ≤
        2 ^ (bpb * rest.length) * 2 ^ bpb :=
      Nat.mul_le_mul_right _ hr
    have h3 : (2 : Nat) ^ (bpb * rest.length) * 2 ^ bpb =
        2 ^ (bpb * (a :: rest).length) := by
      rw [← Nat.pow_add, List.length_cons, Nat.mul_add, Nat.mul_one]
    omega

theorem unpackWord_zero (bpb : Nat) : ∀ n, unpackWord bpb n 0 = List.replicate n 0 := by
  intro n
  induction n with
  | zero => rfl
  | succ n ih =>
    rw [unpackWord, Nat.zero_and, Nat.zero_shiftRight, ih, List.replicate_succ]

theorem unpack_packWord (bpb : Nat) : ∀ (bpw : Nat) (ids : List Nat),
    (∀ a ∈ ids, a < 2 ^ bpb) → ids.length ≤ bpw →
    unpackWord bpb bpw (packWord bpb ids) =
      ids ++ List.replicate (bpw - ids.length) 0 := by
  intro bpw
  induction bpw with
  | zero =>
    intro ids _ hl
    have : ids = [] := List.eq_nil_of_length_eq_zero (by omega)
    subst this
    rfl
  | succ bpw ih =>
    intro ids hb hl
    cases ids with
    | nil =>
      rw [packWord_nil, unpackWord_zero]
      rfl
    | cons a rest =>
      have ha : a < 2 ^ bpb := hb a (List.mem_cons_self a rest)
      have hrest : ∀ x ∈ rest, x < 2 ^ bpb :=
        fun x hx => hb x (List.mem_cons_of_mem a hx)
      rw [packWord_cons_arith bpb a rest ha, unpackWord]
      have hmask : (packWord bpb rest * 2 ^ bpb + a) &&& (2 ^ bpb - 1) = a := by
        rw [Nat.and_pow_two_sub_one_eq_mod, Nat.mul_comm, Nat.mul_add_mod,
          Nat.mod_eq_of_lt ha]
      have hshift : (packWord bpb rest * 2 ^ bpb + a) >>> bpb = packWord bpb rest := by
        rw [Nat.shiftRight_eq_div_pow, Nat.mul_comm,
          Nat.mul_add_div (by positivity), Nat.div_eq_of_lt ha, Nat.add_zero]
      rw [hmask, hshift, ih rest hrest (by simp at hl; omega)]
      simp [List.cons_append, Nat.succ_sub_succ]

theorem chunkWords_take (n : Nat) : ∀ bs : List Nat,
    chunkWords n (bs.take (4 * n)) = chunkWords n bs := by
  induction n with
  | zero => intro bs; rfl
  | succ n ih =>
    intro bs
    have ht : (bs.take (4 * (n + 1))).take 4 = bs.take 4 := by
      rw [List.take_take]
      congr 1
      omega
    have hd : (bs.take (4 * (n + 1))).drop 4 = (bs.drop 4).take (4 * n) := by
      rw [List.drop_take]
      congr 1
    calc chunkWords (n + 1) (bs.take (4 * (n + 1)))
        = leNat ((bs.take (4 * (n + 1))).take 4) ::
            chunkWords n ((bs.take (4 * (n + 1))).drop 4) := by rw [chunkWords]
      _ = leNat (bs.take 4) :: chunkWords n ((bs.drop 4).take (4 * n)) := by
            rw [ht, hd]
      _ = leNat (bs.take 4) :: chunkWords n (bs.drop 4) := by rw [ih]
      _ = chunkWords (n + 1) bs := by rw [chunkWords]

theorem chunkWords_cons (n w : Nat) (hw : w < 2 ^ 32) (bs : List Nat) :
    chunkWords (n + 1) (leBytes 4 w ++ bs) = w :: chunkWords n bs := by
  have hlb : (leBytes 4 w).length = 4 := leBytes_length 4 w
  rw [chunkWords, take_append_left _ _ 4 hlb, drop_append_left _ _ 4 hlb]
  congr 1
  rw [leNat_leBytes]
  exact Nat.mod_eq_of_lt (by norm_num at hw ⊢; omega)

/-- Reading one more word from a word-serialised buffer. -/
theorem popWords_cons {n : Nat} (w : Nat) (hw : w < 2 ^ 32) {bs rest : List Nat}
    {ws : List Nat} (h : popWords n bs = .ok (ws, rest)) :
    popWords (n + 1) (leBytes 4 w ++ bs) = .ok (w :: ws, rest) := by
  rw [popWords] at h
  split at h
  case isFalse => exact absurd h (by simp)
  case isTrue hle =>
    simp only [Except.ok.injEq, Prod.mk.injEq] at h
    rw [popWords]
    have hlb : (leBytes 4 w).length = 4 := leBytes_length 4 w
    have hle2 : 4 * (n + 1) ≤ (leBytes 4 w ++ bs).length := by
      rw [List.length_append, hlb]
      omega
    rw [if_pos hle2, chunkWords_take, chunkWords_cons n w hw bs]
    have hws : chunkWords n bs = ws := by
      rw [← chunkWords_take, h.1]
    have hdrop : (leBytes 4 w ++ bs).drop (4 * (n + 1)) = bs.drop (4 * n) := by
      have h4 : 4 * (n + 1) = (leBytes 4 w).length + 4 * n := by rw [hlb]; omega
      rw [h4, List.drop_append]
    rw [hws, hdrop, h.2]

/-- Packing then word-reading then unpacking gives back the indices, padded
with the zero-filled unused slots of the final word. -/
theorem packPut_unpack (bpb bpw : Nat) (hbpw : 0 < bpw) (hle : bpb * bpw ≤ 32) :
    ∀ (nw : Nat) (ids : List Nat), (∀ a ∈ ids, a < 2 ^ bpb) →
      ids.length ≤ nw * bpw →
      ∃ bs ws, packPut bpb bpw nw ids = .ok bs ∧
        (∀ rest, popWords nw (bs ++ rest) = .ok (ws, rest)) ∧
        ws.flatMap (unpackWord bpb bpw) =
          ids ++ List.replicate (nw * bpw - ids.length) 0 := by
  intro nw
  induction nw with
  | zero =>
    intro ids _ hl
    have hids : ids = [] := List.eq_nil_of_length_eq_zero (by omega)
    subst hids
    refine ⟨[], [], rfl, fun rest => ?_, by simp⟩
    rw [popWords]
    simp [chunkWords]
  | succ nw ih =>
    intro ids hb hl
    have hbtake : ∀ a ∈ ids.take bpw, a < 2 ^ bpb :=
      fun a ha => hb a (List.mem_of_mem_take ha)
    have hbdrop : ∀ a ∈ ids.drop bpw, a < 2 ^ bpb :=
      fun a ha => hb a (List.mem_of_mem_drop ha)
    have hldrop : (ids.drop bpw).length ≤ nw * bpw := by
      rw [List.length_drop]
      simp [Nat.succ_mul] at hl
      omega
    obtain ⟨bs', ws', henc', hpop', hunp'⟩ := ih (ids.drop bpw) hbdrop hldrop
    have hwlt : packWord bpb (ids.take bpw) < 2 ^ 32 := by
      have h1 := packWord_lt bpb (ids.take bpw) hbtake
      have h2 : (2 : Nat) ^ (bpb * (ids.take bpw).length) ≤ 2 ^ 32 := by
        apply Nat.pow_le_pow_right (by omega)
        have h3 : (ids.take bpw).length ≤ bpw := by
          rw [List.length_take]
          omega
        calc bpb * (ids.take bpw).length ≤ bpb * bpw :=
              Nat.mul_le_mul_left bpb h3
          _ ≤ 32 := hle
      omega
    have hput : putU4 (packWord bpb (ids.take bpw)) =
        .ok (leBytes 4 (packWord bpb (ids.take bpw))) := by
      rw [putU4, if_pos hwlt]
    refine ⟨leBytes 4 (packWord bpb (ids.take bpw)) ++ bs',
      packWord bpb (ids.take bpw) :: ws', ?_, fun rest => ?_, ?_⟩
    · rw [packPut, E.bindOk hput, E.bindOk henc']
    · rw [List.append_assoc]
      exact popWords_cons _ hwlt (hpop' rest)
    · rw [List.flatMap_cons, hunp']
      rcases le_or_lt bpw ids.length with hc | hc
      · have htl : (ids.take bpw).length = bpw := by
          rw [List.length_take]
          omega
        rw [unpack_packWord bpb bpw (ids.take bpw) hbtake (by omega), htl,
          Nat.sub_self, List.replicate_zero, List.append_nil,
          ← List.append_assoc, List.take_append_drop]
        congr 2
        rw [List.length_drop]
        simp [Nat.succ_mul]
        omega
      · have htake : ids.take bpw = ids := List.take_of_length_le (by omega)
        have hdropn : ids.drop bpw = [] := List.drop_eq_nil_of_le (by omega)
        rw [htake, unpack_packWord bpb bpw ids hb (by omega), hdropn,
          List.nil_append, List.length_nil, Nat.sub_zero, List.append_assoc,
          ← List.replicate_add]
        congr 2
        simp [Nat.succ_mul]
        omega

/-! bitsPerBlock, word count, and the full block-storage round trip. -/

theorem clog2go_spec (p : Nat) : ∀ (fuel start : Nat), p ≤ 2 ^ (start + fuel) →
    p ≤ 2 ^ clog2go p fuel start ∧ start ≤ clog2go p fuel start ∧
      ∀ j, start ≤ j → p ≤ 2 ^ j → clog2go p fuel start ≤ j := by
  intro fuel
  induction fuel with
  | zero =>
    intro start h
    rw [Nat.add_zero] at h
    exact ⟨h, le_rfl, fun j hj _ => hj⟩
  | succ fuel ih =>
    intro start h
    rw [clog2go]
    split
    case isTrue hps => exact ⟨hps, le_rfl, fun j hj _ => hj⟩
    case isFalse hps =>
      have h2 : p ≤ 2 ^ (start + 1 + fuel) := by
        have : start + 1 + fuel = start + (fuel + 1) := by omega
        rw [this]
        exact h
      obtain ⟨g1, g2, g3⟩ := ih (start + 1) h2
      refine ⟨g1, by omega, fun j hj hpj => ?_⟩
      have hjne : j ≠ start := by
        intro hcon
        rw [hcon] at hpj
        exact hps hpj
      exact g3 j (by omega) hpj

theorem bitsPerBlock_spec (p : Nat) (hp : 1 ≤ p) (hp2 : p ≤ 2 ^ 32) :
    p ≤ 2 ^ bitsPerBlock p ∧ 1 ≤ bitsPerBlock p ∧ bitsPerBlock p ≤ 32 := by
  have h64 : p ≤ 2 ^ (0 + 64) := le_trans hp2 (by norm_num)
  obtain ⟨h1, _, h3⟩ := clog2go_spec p 64 0 h64
  have hc32 : clog2go p 64 0 ≤ 32 := h3 32 (by omega) hp2
  rw [bitsPerBlock]
  refine ⟨?_, le_max_right _ _, by omega⟩
  exact le_trans h1 (Nat.pow_le_pow_right (by omega) (le_max_left _ _))

/-- The computed width is exactly max(ceil(log2(paletteSize)), 1). -/
theorem bitsPerBlock_eq_clog (p : Nat) (hp : 1 ≤ p) (hp2 : p ≤ 2 ^ 32) :
    bitsPerBlock p = max (Nat.clog 2 p) 1 := by
  have h64 : p ≤ 2 ^ (0 + 64) := le_trans hp2 (by norm_num)
  obtain ⟨h1, _, h3⟩ := clog2go_spec p 64 0 h64
  rw [bitsPerBlock]
  congr 1
  apply le_antisymm
  · exact h3 (Nat.clog 2 p) (Nat.zero_le _) (Nat.le_pow_clog (by omega) p)
  · exact (Nat.le_pow_iff_clog_le (by omega)).mp h1

theorem numWordsFor_covers (bpw : Nat) (h : 0 < bpw) :
    4096 ≤ numWordsFor bpw * bpw := by
  have hb : (0 : Int) < (bpw : Int) := by exact_mod_cast h
  rw [numWordsFor, Int.fdiv_eq_ediv _ (le_of_lt hb)]
  have hdm := Int.ediv_add_emod (-4096 : Int) (bpw : Int)
  have hr1 : 0 ≤ (-4096 : Int) % (bpw : Int) := Int.emod_nonneg _ (by omega)
  have hr2 : (-4096 : Int) % (bpw : Int) < (bpw : Int) := Int.emod_lt_of_pos _ hb
  have hqneg : (-4096 : Int) / (bpw : Int) < 0 := by
    by_contra hq
    push_neg at hq
    have hnn : 0 ≤ (bpw : Int) * ((-4096 : Int) / (bpw : Int)) :=
      mul_nonneg (le_of_lt hb) hq
    omega
  have hflip : (bpw : Int) * (-((-4096 : Int) / (bpw : Int))) =
      -((bpw : Int) * ((-4096 : Int) / (bpw : Int))) := by ring
  have hkey : (4096 : Int) ≤ (bpw : Int) * (-((-4096 : Int) / (bpw : Int))) := by
    omega
  have hcast : (((-((-4096 : Int) / (bpw : Int))).toNat : Nat) : Int) =
      -((-4096 : Int) / (bpw : Int)) := Int.toNat_of_nonneg (by omega)
  have hfin : (4096 : Int) ≤
      (((-((-4096 : Int) / (bpw : Int))).toNat * bpw : Nat) : Int) := by
    push_cast
    rw [hcast, mul_comm]
    exact hkey
  exact_mod_cast hfin

theorem shiftLeft_one_shiftRight (a : Nat) : (a <<< 1) >>> 1 = a := by
  rw [Nat.shiftLeft_eq, Nat.shiftRight_eq_div_pow]
  simp

/-- SubChunk._saveBlocks then SubChunk._loadBlocks is the identity on a
4096-index sequence referencing a palette of size p. -/
theorem loadBlocks_saveBlocks (p : Nat) (hp : 1 ≤ p) (hp2 : p ≤ 2 ^ 32)
    (ids : List Nat) (hlen : ids.length = 4096) (hlt : ∀ a ∈ ids, a < p) :
    ∃ bs, saveBlocks p ids = .ok bs ∧
      bs = (bitsPerBlock p <<< 1) :: bs.tail ∧
      ∀ rest, loadBlocksM (bs ++ rest) = .ok (ids, rest) := by
  obtain ⟨hple, hb1, hb32⟩ := bitsPerBlock_spec p hp hp2
  have hbpw1 : 1 ≤ 32 / bitsPerBlock p := (Nat.one_le_div_iff (by omega)).mpr hb32
  have hmul : bitsPerBlock p * (32 / bitsPerBlock p) ≤ 32 := by
    rw [Nat.mul_comm]
    exact Nat.div_mul_le_self 32 (bitsPerBlock p)
  have hcov : 4096 ≤ numWordsFor (32 / bitsPerBlock p) * (32 / bitsPerBlock p) :=
    numWordsFor_covers _ (by omega)
  have hidlt : ∀ a ∈ ids, a < 2 ^ bitsPerBlock p :=
    fun a ha => lt_of_lt_of_le (hlt a ha) hple
  obtain ⟨wbs, ws, hpack, hpop, hunp⟩ :=
    packPut_unpack (bitsPerBlock p) (32 / bitsPerBlock p) (by omega) hmul
      (numWordsFor (32 / bitsPerBlock p)) ids hidlt (by omega)
  have hhdr : putU1 (bitsPerBlock p <<< 1) = .ok [bitsPerBlock p <<< 1] := by
    rw [putU1, if_pos]
    rw [Nat.shiftLeft_eq]
    omega
  refine ⟨(bitsPerBlock p <<< 1) :: wbs, ?_, rfl, fun rest => ?_⟩
  · rw [saveBlocks]
    rw [E.bindOk hhdr, E.bindOk hpack]
    rfl
  · rw [loadBlocksM]
    have hbyte : byteIdx ((bitsPerBlock p <<< 1) :: (wbs ++ rest)) =
        .ok (bitsPerBlock p <<< 1, wbs ++ rest) := rfl
    rw [List.cons_append, M.bind_ok hbyte, shiftLeft_one_shiftRight]
    rw [if_neg (by omega)]
    rw [M.bind_ok (hpop rest), M.pure_apply, hunp]
    have htake : List.take 4096 (ids ++
        List.replicate (numWordsFor (32 / bitsPerBlock p) *
          (32 / bitsPerBlock p) - ids.length) 0) = ids := by
      rw [← hlen, List.take_left]
    rw [htake]

/-! Palette construction: first-seen dedup, stable indices. -/

theorem beq_entryOf_iff (b' b : Block) :
    Tag.beq (entryOf b') (entryOf b) = true ↔ entryOf b' = entryOf b := by
  simp [Tag.beq, Tag.beqL, entryOf]

theorem palIdx_found (b0 : Block) : ∀ pal : List Tag,
    (∀ q ∈ pal, ∃ b', q = entryOf b') → palContains pal (entryOf b0) = true →
    palIdx (entryOf b0) pal < pal.length ∧
      pal.getD (palIdx (entryOf b0) pal) (.byte (.int 0) 0) = entryOf b0 := by
  intro pal
  induction pal with
  | nil => intro _ hc; simp [palContains] at hc
  | cons q rest ih =>
    intro hall hc
    by_cases hq : Tag.beq q (entryOf b0) = true
    · obtain ⟨b', hb'⟩ := hall q (List.mem_cons_self q rest)
      subst hb'
      have heq : entryOf b' = entryOf b0 := (beq_entryOf_iff b' b0).mp hq
      rw [palIdx, if_pos hq]
      simp [heq]
    · have hc' : palContains rest (entryOf b0) = true := by
        simp [palContains] at hc ⊢
        rcases hc with h | h
        · exact absurd h hq
        · exact h
      obtain ⟨h1, h2⟩ := ih (fun q2 hq2 => hall q2 (List.mem_cons_of_mem q hq2)) hc'
      rw [palIdx, if_neg hq]
      refine ⟨by simp; omega, ?_⟩
      simpa using h2

theorem palIdx_appended (b0 : Block) : ∀ pal : List Tag,
    palContains pal (entryOf b0) = false →
    palIdx (entryOf b0) (pal ++ [entryOf b0]) = pal.length ∧
      (pal ++ [entryOf b0]).getD (palIdx (entryOf b0) (pal ++ [entryOf b0]))
        (.byte (.int 0) 0) = entryOf b0 := by
  intro pal
  induction pal with
  | nil =>
    intro _
    have hself : Tag.beq (entryOf b0) (entryOf b0) = true :=
      (beq_entryOf_iff b0 b0).mpr rfl
    rw [List.nil_append]
    rw [palIdx, if_pos hself]
    simp
  | cons q rest ih =>
    intro hc
    have hqne : Tag.beq q (entryOf b0) = false := by
      simp [palContains] at hc
      exact hc.1
    obtain ⟨h1, h2⟩ := ih (by simp [palContains] at hc ⊢; exact hc.2)
    rw [List.cons_append, palIdx, if_neg (by rw [hqne]; simp)]
    refine ⟨by rw [h1]; simp, ?_⟩
    rw [h1] at h2 ⊢
    simpa using h2

theorem savePaletteGo_spec : ∀ (blocks : List Block) (pal : List Tag),
    (∀ q ∈ pal, ∃ b', q = entryOf b') →
    (∃ suf, (savePaletteGo pal blocks).1 = pal ++ suf) ∧
    (∀ q ∈ (savePaletteGo pal blocks).1, ∃ b', q = entryOf b') ∧
    (savePaletteGo pal blocks).2.length = blocks.length ∧
    (savePaletteGo pal blocks).1.length ≤ pal.length + blocks.length ∧
    ∀ i, i < blocks.length →
      (savePaletteGo pal blocks).2.getD i 0 < (savePaletteGo pal blocks).1.length ∧
      (savePaletteGo pal blocks).1.getD ((savePaletteGo pal blocks).2.getD i 0)
        (.byte (.int 0) 0) = entryOf (blocks.getD i defaultBlock) := by
  intro blocks
  induction blocks with
  | nil =>
    intro pal hall
    refine ⟨⟨[], by simp [savePaletteGo]⟩, ?_, by simp [savePaletteGo], ?_, ?_⟩
    · simpa [savePaletteGo] using hall
    · simp [savePaletteGo]
    · intro i hi; simp at hi
  | cons b rest ih =>
    intro pal hall
    by_cases hc : palContains pal (entryOf b) = true
    · -- already present: palette unchanged in this step
      have hstep : savePaletteGo pal (b :: rest) =
          ((savePaletteGo pal rest).1,
            palIdx (entryOf b) pal :: (savePaletteGo pal rest).2) := by
        rw [savePaletteGo]
        simp [hc]
      obtain ⟨⟨suf, hsuf⟩, hall', hlen2, hlen1, hidx⟩ := ih pal hall
      obtain ⟨hplt, hpget⟩ := palIdx_found b pal hall hc
      rw [hstep]
      refine ⟨⟨suf, hsuf⟩, hall', by simpa using hlen2, ?_, ?_⟩
      · simp only [List.length_cons] at *
        omega
      · intro i hi
        cases i with
        | zero =>
          refine ⟨?_, ?_⟩
          · have : pal.length ≤ (savePaletteGo pal rest).1.length := by
              rw [hsuf]; simp
            simpa using by omega
          · have hget2 : (savePaletteGo pal rest).1.getD (palIdx (entryOf b) pal)
                (.byte (.int 0) 0) = entryOf b := by
              rw [hsuf, List.getD_append _ _ _ _ hplt]
              exact hpget
            simpa using hget2
        | succ i =>
          have hi' : i < rest.length := by simpa using hi
          obtain ⟨g1, g2⟩ := hidx i hi'
          exact ⟨by simpa using g1, by simpa using g2⟩
    · -- new entry appended
      have hcf : palContains pal (entryOf b) = false := by
        rw [Bool.eq_false_iff]
        exact hc
      have hstep : savePaletteGo pal (b :: rest) =
          ((savePaletteGo (pal ++ [entryOf b]) rest).1,
            palIdx (entryOf b) (pal ++ [entryOf b]) ::
              (savePaletteGo (pal ++ [entryOf b]) rest).2) := by
        rw [savePaletteGo]
        simp [hcf]
      have hall2 : ∀ q ∈ pal ++ [entryOf b], ∃ b', q = entryOf b' := by
        intro q hq
        rcases List.mem_append.mp hq with h | h
        · exact hall q h
        · simp at h
          exact ⟨b, h⟩
      obtain ⟨⟨suf, hsuf⟩, hall', hlen2, hlen1, hidx⟩ := ih (pal ++ [entryOf b]) hall2
      obtain ⟨hplt, hpget⟩ := palIdx_appended b pal hcf
      rw [hstep]
      refine ⟨⟨[entryOf b] ++ suf, by rw [hsuf, List.append_assoc]⟩, hall',
        by simpa using hlen2, ?_, ?_⟩
      · simp only [List.length_cons] at *
        simp at hlen1
        omega
      · intro i hi
        cases i with
        | zero =>
          refine ⟨?_, ?_⟩
          · have : (pal ++ [entryOf b]).length ≤
                (savePaletteGo (pal ++ [entryOf b]) rest).1.length := by
              rw [hsuf]; simp
            simp at this ⊢
            rw [hplt]
            omega
          · have hplt2 : palIdx (entryOf b) (pal ++ [entryOf b]) <
                (pal ++ [entryOf b]).length := by
              rw [hplt]; simp
            have hget2 : (savePaletteGo (pal ++ [entryOf b]) rest).1.getD
                (palIdx (entryOf b) (pal ++ [entryOf b])) (.byte (.int 0) 0) =
                entryOf b := by
              rw [hsuf, List.getD_append _ _ _ _ hplt2]
              exact hpget
            simpa using hget2
        | succ i =>
          have hi' : i < rest.length := by simpa using hi
          obtain ⟨g1, g2⟩ := hidx i hi'
          exact ⟨by simpa using g1, by simpa using g2⟩

theorem savePaletteGo_from : ∀ (blocks : List Block) (pal : List Tag),
    ∀ q ∈ (savePaletteGo pal blocks).1,
      q ∈ pal ∨ ∃ b' ∈ blocks, q = entryOf b' := by
  intro blocks
  induction blocks with
  | nil =>
    intro pal q hq
    left
    simpa [savePaletteGo] using hq
  | cons b rest ih =>
    intro pal q hq
    by_cases hc : palContains pal (entryOf b) = true
    · have hstep : (savePaletteGo pal (b :: rest)).1 =
          (savePaletteGo pal rest).1 := by
        rw [savePaletteGo]; simp [hc]
      rw [hstep] at hq
      rcases ih pal q hq with h | ⟨b', hb', he⟩
      · exact Or.inl h
      · exact Or.inr ⟨b', List.mem_cons_of_mem b hb', he⟩
    · have hcf : palContains pal (entryOf b) = false := by
        rw [Bool.eq_false_iff]; exact hc
      have hstep : (savePaletteGo pal (b :: rest)).1 =
          (savePaletteGo (pal ++ [entryOf b]) rest).1 := by
        rw [savePaletteGo]; simp [hcf]
      rw [hstep] at hq
      rcases ih (pal ++ [entryOf b]) q hq with h | ⟨b', hb', he⟩
      · rcases List.mem_append.mp h with h2 | h2
        · exact Or.inl h2
        · simp at h2
          exact Or.inr ⟨b, List.mem_cons_self b rest, h2⟩
      · exact Or.inr ⟨b', List.mem_cons_of_mem b hb', he⟩

/-! Axis exchange: wire order X, Z, Y against logical order (x, y, z). -/

theorem flatten3_length (v : Vol) : (flatten3 v).length = 4096 := by
  rw [flatten3, List.length_map, List.length_range]

theorem flatten3_getD (v : Vol) (a b c : Fin 16) :
    (flatten3 v).getD (a.val * 256 + b.val * 16 + c.val) defaultBlock =
      v a b c := by
  have hlt : a.val * 256 + b.val * 16 + c.val < 4096 := by
    have := a.isLt
    have := b.isLt
    have := c.isLt
    omega
  rw [flatten3]
  rw [List.getD_eq_getElem?_getD, List.getElem?_map, List.getElem?_range hlt]
  simp only [Option.map_some', Option.getD_some]
  congr 1 <;> apply Fin.ext <;> simp <;> omega

/-- The numpy reshape(16,16,16).swapaxes(1,2) read of a flat wire buffer:
logical (x, y, z) holds the element at wire flat position x*256 + z*16 + y. -/
theorem decode_arrange (flat : List Block) (x y z : Fin 16) :
    swapaxes12 (reshape3 flat) x y z =
      flat.getD (x.val * 256 + z.val * 16 + y.val) defaultBlock := rfl

/-- The numpy swapaxes(1,2).reshape(4096) write: wire flat position
x*256 + z*16 + y holds the logical block at (x, y, z). -/
theorem encode_arrange (v : Vol) (x y z : Fin 16) :
    (flatten3 (swapaxes12 v)).getD (x.val * 256 + z.val * 16 + y.val)
      defaultBlock = v x y z :=
  flatten3_getD (swapaxes12 v) x z y

/-! Palette-entry resolution. -/

theorem resolveEntry_entryOf (b : Block) :
    resolveEntry (entryOf b) = .ok ⟨b.name, b.dv, none⟩ := rfl

theorem resolveAll_of (palette : List Tag) : ∀ (ids : List Nat) (blocks : List Block),
    ids.length = blocks.length →
    (∀ i, i < ids.length → ids.getD i 0 < palette.length ∧
      palette.getD (ids.getD i 0) (.byte (.int 0) 0) =
        entryOf (blocks.getD i defaultBlock)) →
    resolveAll palette ids = .ok (blocks.map fun b => ⟨b.name, b.dv, none⟩) := by
  intro ids
  induction ids with
  | nil =>
    intro blocks hlen _
    have : blocks = [] := List.eq_nil_of_length_eq_zero (by simp at hlen; omega)
    subst this
    rfl
  | cons i ir ih =>
    intro blocks hlen hprop
    cases blocks with
    | nil => simp at hlen
    | cons b br =>
      obtain ⟨h0lt, h0get⟩ := hprop 0 (by simp)
      simp only [List.getD_cons_zero] at h0lt h0get
      rw [resolveAll, if_pos h0lt, h0get,
        E.bindOk (resolveEntry_entryOf b)]
      have hrec := ih br (by simp at hlen; omega) ?_
      · rw [E.bindOk hrec]
        rfl
      · intro j hj
        obtain ⟨g1, g2⟩ := hprop (j + 1) (by simp at hj ⊢; omega)
        simp only [List.getD_cons_succ] at g1 g2
        exact ⟨g1, g2⟩

theorem entryOf_tagOK {b : Block} (h : blockOK b = true) :
    tagOK (entryOf b) = true := by
  simp only [blockOK, Bool.and_eq_true] at h
  simp [tagOK, entryOf, nameOKB, payloadOK, compoundItemsOK, Tag.name, h.1, h.2]
  decide

theorem tagFuel_entryOf (b : Block) : tagFuel (entryOf b) = 6 := rfl

theorem popU4_leBytes (p : Nat) (hp : p < 2 ^ 32) (rest : List Nat) :
    popU4M (leBytes 4 p ++ rest) = .ok (p, rest) := by
  have hlb : (leBytes 4 p).length = 4 := leBytes_length 4 p
  rw [popU4M, if_pos (by rw [List.length_append, hlb]; omega)]
  rw [take_append_left _ _ 4 hlb, drop_append_left _ _ 4 hlb, leNat_leBytes]
  rw [Nat.mod_eq_of_lt (by norm_num at hp ⊢; omega)]

/-! The subchunk round trip: SubChunk.save then SubChunk.__init__ recovers
the name and data value of every block; attached tag trees are not stored
by this codec, so decoded blocks carry none. -/

theorem subchunk_rt (vol : Vol) (hok : volOK vol) (fuel : Nat) (hf : 6 ≤ fuel) :
    ∃ bs, subchunkSave 8 vol = .ok bs ∧
      ∃ w, subchunkDecode fuel bs = .ok (w, []) ∧
        ∀ x y z : Fin 16,
          w x y z = ⟨(vol x y z).name, (vol x y z).dv, none⟩ := by
  have hflen : (flatten3 (swapaxes12 vol)).length = 4096 := flatten3_length _
  have hmem : ∀ b ∈ flatten3 (swapaxes12 vol), blockOK b = true := by
    intro b hb
    rw [flatten3] at hb
    obtain ⟨i, _, hib⟩ := List.mem_map.mp hb
    rw [← hib]
    exact hok _ _ _
  obtain ⟨⟨suf, hsuf⟩, hallp, hlenids, hlenpal, hidx⟩ :=
    savePaletteGo_spec (flatten3 (swapaxes12 vol)) [] (by simp)
  rw [hflen] at hidx
  have hpal_pos : 1 ≤ (savePaletteGo [] (flatten3 (swapaxes12 vol))).1.length := by
    have h0 := (hidx 0 (by omega)).1
    omega
  have hpal4096 : (savePaletteGo [] (flatten3 (swapaxes12 vol))).1.length ≤ 4096 := by
    rw [hflen] at hlenpal
    simpa using hlenpal
  have hpalOK : ∀ q ∈ (savePaletteGo [] (flatten3 (swapaxes12 vol))).1,
      tagOK q = true := by
    intro q hq
    rcases savePaletteGo_from (flatten3 (swapaxes12 vol)) [] q hq with h | ⟨b', hb', he⟩
    · simp at h
    · rw [he]
      exact entryOf_tagOK (hmem b' hb')
  have hpalFuel : ∀ q ∈ (savePaletteGo [] (flatten3 (swapaxes12 vol))).1,
      tagFuel q ≤ fuel := by
    intro q hq
    rcases savePaletteGo_from (flatten3 (swapaxes12 vol)) [] q hq with h | ⟨b', _, he⟩
    · simp at h
    · rw [he, tagFuel_entryOf]
      omega
  obtain ⟨ebs, hence, hdece, _⟩ := entries_all _ hpalOK fuel hpalFuel
  have hlt : ∀ a ∈ (savePaletteGo [] (flatten3 (swapaxes12 vol))).2,
      a < (savePaletteGo [] (flatten3 (swapaxes12 vol))).1.length := by
    intro a ha
    obtain ⟨i, hi, hia⟩ := List.mem_iff_getElem.mp ha
    have hi4 : i < 4096 := by
      rw [hlenids, hflen] at hi
      exact hi
    have h1 := (hidx i hi4).1
    rwa [List.getD_eq_getElem _ 0 hi, hia] at h1
  obtain ⟨bbs, hencb, _, hdecb⟩ :=
    loadBlocks_saveBlocks (savePaletteGo [] (flatten3 (swapaxes12 vol))).1.length
      hpal_pos (by norm_num; omega)
      (savePaletteGo [] (flatten3 (swapaxes12 vol))).2
      (by rw [hlenids, hflen]) hlt
  have hlen32 : (savePaletteGo [] (flatten3 (swapaxes12 vol))).1.length < 2 ^ 32 := by
    norm_num
    omega
  have hputlen : putU4 (savePaletteGo [] (flatten3 (swapaxes12 vol))).1.length =
      .ok (leBytes 4 (savePaletteGo [] (flatten3 (swapaxes12 vol))).1.length) := by
    rw [putU4, if_pos hlen32]
  have hres : resolveAll (savePaletteGo [] (flatten3 (swapaxes12 vol))).1
      (savePaletteGo [] (flatten3 (swapaxes12 vol))).2 =
      .ok ((flatten3 (swapaxes12 vol)).map fun b => ⟨b.name, b.dv, none⟩) := by
    apply resolveAll_of
    · rw [hlenids]
    · intro i hi
      have hi4 : i < 4096 := by
        rw [hlenids, hflen] at hi
        exact hi
      exact hidx i hi4
  refine ⟨[8] ++ [1] ++ bbs ++
    leBytes 4 (savePaletteGo [] (flatten3 (swapaxes12 vol))).1.length ++ ebs,
    ?_, ?_⟩
  · rw [subchunkSave]
    simp only [savePalette]
    rw [E.bindOk (show putU1 8 = .ok [8] from rfl),
      E.bindOk (show putU1 1 = .ok [1] from rfl)]
    show E.bind (saveBlocks _ _) _ = _
    rw [E.bindOk hencb, E.bindOk hputlen, E.bindOk hence]
  · refine ⟨swapaxes12 (reshape3 ((flatten3 (swapaxes12 vol)).map
      fun b => ⟨b.name, b.dv, none⟩)), ?_, ?_⟩
    · rw [subchunkDecode]
      have hshape : [8] ++ [1] ++ bbs ++
          leBytes 4 (savePaletteGo [] (flatten3 (swapaxes12 vol))).1.length ++ ebs =
          8 :: (1 :: (bbs ++
            (leBytes 4 (savePaletteGo [] (flatten3 (swapaxes12 vol))).1.length ++
              ebs))) := by
        simp [List.append_assoc]
      rw [hshape]
      rw [M.bind_ok (show byteIdx (8 :: (1 :: (bbs ++ _))) = .ok (8, _) from rfl)]
      rw [if_neg (by simp)]
      rw [M.bind_ok (show byteIdx (1 :: (bbs ++ _)) = .ok (1, _) from rfl)]
      rw [if_neg (by simp)]
      rw [M.bind_ok (hdecb _)]
      rw [M.bind_ok (popU4_leBytes _ hlen32 ebs)]
      have hde : decodeEntries fuel
          (savePaletteGo [] (flatten3 (swapaxes12 vol))).1.length ebs =
          .ok ((savePaletteGo [] (flatten3 (swapaxes12 vol))).1, []) := by
        have h1 := hdece []
        rwa [List.append_nil] at h1
      rw [M.bind_ok hde]
      rw [M.bind_ok (M.liftE_ok hres [])]
      rw [M.pure_apply]
    · intro x y z
      rw [decode_arrange]
      have hpos : x.val * 256 + z.val * 16 + y.val < 4096 := by
        have := x.isLt
        have := y.isLt
        have := z.isLt
        omega
      have hlt2 : x.val * 256 + z.val * 16 + y.val <
          ((flatten3 (swapaxes12 vol)).map
            (fun b => (⟨b.name, b.dv, none⟩ : Block))).length := by
        rw [List.length_map, hflen]
        exact hpos
      rw [List.getD_eq_getElem _ _ hlt2, List.getElem_map]
      have he := encode_arrange vol x y z
      rw [List.getD_eq_getElem _ _ (by rw [hflen]; exact hpos)] at he
      rw [he]

/-- Dropping the final byte of a saved subchunk leaves the palette-entry
stream truncated, so SubChunk.__init__ fails with the truncation error. -/
theorem subchunk_trunc (vol : Vol) (hok : volOK vol) (fuel : Nat) (hf : 6 ≤ fuel) :
    ∃ bs, subchunkSave 8 vol = .ok bs ∧
      subchunkDecode fuel bs.dropLast = .error .truncated := by
  have hflen : (flatten3 (swapaxes12 vol)).length = 4096 := flatten3_length _
  have hmem : ∀ b ∈ flatten3 (swapaxes12 vol), blockOK b = true := by
    intro b hb
    rw [flatten3] at hb
    obtain ⟨i, _, hib⟩ := List.mem_map.mp hb
    rw [← hib]
    exact hok _ _ _
  obtain ⟨⟨suf, hsuf⟩, hallp, hlenids, hlenpal, hidx⟩ :=
    savePaletteGo_spec (flatten3 (swapaxes12 vol)) [] (by simp)
  rw [hflen] at hidx
  have hpal_pos : 1 ≤ (savePaletteGo [] (flatten3 (swapaxes12 vol))).1.length := by
    have h0 := (hidx 0 (by omega)).1
    omega
  have hpal4096 : (savePaletteGo [] (flatten3 (swapaxes12 vol))).1.length ≤ 4096 := by
    rw [hflen] at hlenpal
    simpa using hlenpal
  have hpalOK : ∀ q ∈ (savePaletteGo [] (flatten3 (swapaxes12 vol))).1,
      tagOK q = true := by
    intro q hq
    rcases savePaletteGo_from (flatten3 (swapaxes12 vol)) [] q hq with h | ⟨b', hb', he⟩
    · simp at h
    · rw [he]
      exact entryOf_tagOK (hmem b' hb')
  have hpalFuel : ∀ q ∈ (savePaletteGo [] (flatten3 (swapaxes12 vol))).1,
      tagFuel q ≤ fuel := by
    intro q hq
    rcases savePaletteGo_from (flatten3 (swapaxes12 vol)) [] q hq with h | ⟨b', _, he⟩
    · simp at h
    · rw [he, tagFuel_entryOf]
      omega
  obtain ⟨ebs, hence, _, htrc⟩ := entries_all _ hpalOK fuel hpalFuel
  have hpalne : (savePaletteGo [] (flatten3 (swapaxes12 vol))).1 ≠ [] := by
    intro hcon
    rw [hcon] at hpal_pos
    simp at hpal_pos
  obtain ⟨hebsne, htr⟩ := htrc hpalne
  have hlt : ∀ a ∈ (savePaletteGo [] (flatten3 (swapaxes12 vol))).2,
      a < (savePaletteGo [] (flatten3 (swapaxes12 vol))).1.length := by
    intro a ha
    obtain ⟨i, hi, hia⟩ := List.mem_iff_getElem.mp ha
    have hi4 : i < 4096 := by
      rw [hlenids, hflen] at hi
      exact hi
    have h1 := (hidx i hi4).1
    rwa [List.getD_eq_getElem _ 0 hi, hia] at h1
  obtain ⟨bbs, hencb, _, hdecb⟩ :=
    loadBlocks_saveBlocks (savePaletteGo [] (flatten3 (swapaxes12 vol))).1.length
      hpal_pos (by norm_num; omega)
      (savePaletteGo [] (flatten3 (swapaxes12 vol))).2
      (by rw [hlenids, hflen]) hlt
  have hlen32 : (savePaletteGo [] (flatten3 (swapaxes12 vol))).1.length < 2 ^ 32 := by
    norm_num
    omega
  have hputlen : putU4 (savePaletteGo [] (flatten3 (swapaxes12 vol))).1.length =
      .ok (leBytes 4 (savePaletteGo [] (flatten3 (swapaxes12 vol))).1.length) := by
    rw [putU4, if_pos hlen32]
  refine ⟨[8] ++ [1] ++ bbs ++
    leBytes 4 (savePaletteGo [] (flatten3 (swapaxes12 vol))).1.length ++ ebs,
    ?_, ?_⟩
  · rw [subchunkSave]
    simp only [savePalette]
    rw [E.bindOk (show putU1 8 = .ok [8] from rfl),
      E.bindOk (show putU1 1 = .ok [1] from rfl)]
    show E.bind (saveBlocks _ _) _ = _
    rw [E.bindOk hencb, E.bindOk hputlen, E.bindOk hence]
  · rw [List.dropLast_append_of_ne_nil _ hebsne]
    rw [subchunkDecode]
    have hshape : [8] ++ [1] ++ bbs ++
        leBytes 4 (savePaletteGo [] (flatten3 (swapaxes12 vol))).1.length ++
        ebs.dropLast =
        8 :: (1 :: (bbs ++
          (leBytes 4 (savePaletteGo [] (flatten3 (swapaxes12 vol))).1.length ++
            ebs.dropLast))) := by
      simp [List.append_assoc]
    rw [hshape]
    rw [M.bind_ok (show byteIdx (8 :: (1 :: (bbs ++ _))) = .ok (8, _) from rfl)]
    rw [if_neg (by simp)]
    rw [M.bind_ok (show byteIdx (1 :: (bbs ++ _)) = .ok (1, _) from rfl)]
    rw [if_neg (by simp)]
    rw [M.bind_ok (hdecb _)]
    rw [M.bind_ok (popU4_leBytes _ hlen32 ebs.dropLast)]
    rw [M.bind_error htr]

/-! TAG_Compound.pop: remove-by-name behaviour. -/

theorem tagPop_none (nm : PyName) : ∀ l : List Tag,
    (∀ t ∈ l, t.name ≠ nm) → tagPop nm l = (none, l) := by
  intro l
  induction l with
  | nil => intro _; rfl
  | cons t rest ih =>
    intro h
    rw [tagPop, if_neg (h t (List.mem_cons_self t rest)),
      ih fun u hu => h u (List.mem_cons_of_mem t hu)]

theorem tagPop_first (nm : PyName) (t : Tag) (ht : t.name = nm) :
    ∀ pre : List Tag, (∀ u ∈ pre, u.name ≠ nm) → ∀ post : List Tag,
    tagPop nm (pre ++ t :: post) = (some t, pre ++ post) := by
  intro pre
  induction pre with
  | nil =>
    intro _ post
    rw [List.nil_append, tagPop, if_pos ht, List.nil_append]
  | cons u rest ih =>
    intro h post
    rw [List.cons_append, tagPop, if_neg (h u (List.mem_cons_self u rest)),
      ih (fun v hv => h v (List.mem_cons_of_mem u hv)) post]
    rfl

/-! Claims. -/

/-- Claim C1 (corrected): the NBT round trip decodeTag(encodeTag(t)) = t
holds on the grammar of section 3 restricted to ASCII strings and names of
at most 32767 code points (tagOK); with non-ASCII strings the writer's
code-point length prefix disagrees with the UTF-8 byte count and the
payload bytes are truncated, so the round trip fails
(counterexample_C1). -/
theorem claim_C1 (t : Tag) (hok : tagOK t = true) (N : Nat)
    (hf : tagFuel t ≤ N) :
    ∃ bs, nbtEncode t = .ok bs ∧ nbtDecode N bs = .ok (t, []) := by
  obtain ⟨bs, h1, _, h3⟩ := nbt_rt t hok N hf
  refine ⟨bs, h1, ?_⟩
  have h := h3 []
  rwa [List.append_nil] at h

/-- Claim C1 counterexample: the String tag named "" whose payload is the
single code point 233 (a two-byte UTF-8 character) encodes successfully,
but the emitted buffer holds a length prefix of 1 (the code-point count)
followed by only the first UTF-8 byte, and decoding it fails on the
truncated UTF-8 sequence instead of returning the tag. -/
theorem counterexample_C1 :
    nbtEncode (Tag.string (.str []) [233]) = .ok [8, 0, 0, 1, 0, 195] ∧
    nbtDecode 1 [8, 0, 0, 1, 0, 195] = .error .badUtf8 :=
  ⟨rfl, rfl⟩

/-- Claim C1 witness: a concrete Byte tag round-trips. -/
theorem witness_C1 :
    ∃ bs, nbtEncode (Tag.byte (.str []) 5) = .ok bs ∧
      nbtDecode 1 bs = .ok (Tag.byte (.str []) 5, []) :=
  claim_C1 (Tag.byte (.str []) 5) rfl 1 (by decide)

/-- Claim C2 (corrected): the subchunk round trip
decodeSubchunk(encodeSubchunk(v)) recovers the block name and data value at
every coordinate, but not any attached tag tree: the palette stores only
name and val, so every decoded block carries no tag tree
(counterexample_C2). -/
theorem claim_C2 (vol : Vol) (hok : volOK vol) (fuel : Nat) (hf : 6 ≤ fuel) :
    ∃ bs, subchunkSave 8 vol = .ok bs ∧
      ∃ w, subchunkDecode fuel bs = .ok (w, []) ∧
        ∀ x y z : Fin 16,
          (w x y z).name = (vol x y z).name ∧
          (w x y z).dv = (vol x y z).dv ∧ (w x y z).nbt = none := by
  obtain ⟨bs, h1, w, h2, h3⟩ := subchunk_rt vol hok fuel hf
  refine ⟨bs, h1, w, h2, fun x y z => ?_⟩
  rw [h3 x y z]
  exact ⟨rfl, rfl, rfl⟩

/-- Claim C2 counterexample: a volume holding one block type with an
attached tag tree encodes and decodes, but the decoded block differs from
the original at every coordinate: the attached tag tree is gone. -/
theorem counterexample_C2 :
    ∃ bs, subchunkSave 8
      (fun _ _ _ => ⟨[97], 0, some (Tag.byte (.str []) 1)⟩) = .ok bs ∧
      ∃ w, subchunkDecode 6 bs = .ok (w, []) ∧
        w 0 0 0 ≠ (⟨[97], 0, some (Tag.byte (.str []) 1)⟩ : Block) := by
  obtain ⟨bs, h1, w, h2, h3⟩ :=
    subchunk_rt (fun _ _ _ => ⟨[97], 0, some (Tag.byte (.str []) 1)⟩)
      (fun _ _ _ => rfl) 6 (le_refl 6)
  refine ⟨bs, h1, w, h2, ?_⟩
  rw [h3 0 0 0]
  intro hcon
  simpa using congrArg Block.nbt hcon

/-- Claim C2 witness: a concrete volume of one ASCII-named block with no
attached tag tree round-trips coordinatewise. -/
theorem witness_C2 :
    ∃ bs, subchunkSave 8 (fun _ _ _ => (⟨[97], 0, none⟩ : Block)) = .ok bs ∧
      ∃ w, subchunkDecode 6 bs = .ok (w, []) ∧
        ∀ x y z : Fin 16,
          (w x y z).name = ((fun _ _ _ => (⟨[97], 0, none⟩ : Block))
            x y z).name ∧
          (w x y z).dv = ((fun _ _ _ => (⟨[97], 0, none⟩ : Block)) x y z).dv ∧
          (w x y z).nbt = none :=
  claim_C2 (fun _ _ _ => (⟨[97], 0, none⟩ : Block)) (fun _ _ _ => rfl) 6
    (le_refl 6)

/-- Claim C3 (corrected): DataWriter.putString writes len(string) — the
CODE-POINT count, not the UTF-8 byte count — as a signed 16-bit prefix and
then the UTF-8 bytes truncated or zero-padded to that same count; it
succeeds exactly when the code-point count is at most 32767 (the signed
16-bit bound), not 65535, and fails with the pack range error above it. -/
theorem claim_C3 (s : List Nat) :
    (s.length ≤ 32767 →
      putString s =
        .ok (leBytes 2 s.length ++ padTrunc s.length (utf8Encode s))) ∧
    (32768 ≤ s.length → putString s = .error .packRange) := by
  constructor
  · intro h
    rw [putString,
      E.bindOk (putInt_nat (by omega) s.length (by norm_num; omega))]
  · intro h
    have hfit : intFits 2 ((s.length : Nat) : Int) = false := by
      simp only [intFits, Bool.and_eq_false_iff, decide_eq_false_iff_not,
        not_lt]
      right
      norm_num
      omega
    have hne : ¬ (intFits 2 ((s.length : Nat) : Int) = true) := by
      rw [hfit]
      exact Bool.false_ne_true
    have hperr : putInt 2 ((s.length : Nat) : Int) = .error .packRange := by
      rw [putInt, if_neg hne]
    rw [putString, E.bindErr hperr]

/-- Claim C3 counterexample: the one-character string of code point 233 has
UTF-8 byte length 2, well under 65535, yet putString emits the prefix 1
(its code-point count) followed by a single truncated byte — not a 2-byte
length prefix followed by both UTF-8 bytes. -/
theorem counterexample_C3 :
    (utf8Encode [233]).length = 2 ∧
    putString [233] = .ok [1, 0, 195] :=
  ⟨rfl, rfl⟩

/-- Claim C3 witness: a concrete two-character ASCII string. -/
theorem witness_C3 :
    putString [104, 105] =
      .ok (leBytes 2 2 ++ padTrunc 2 (utf8Encode [104, 105])) :=
  (claim_C3 [104, 105]).1 (by decide)

/-- Claim C4 (corrected): TAG_List.encode on an empty payload writes the
element-kind byte 0 (TAG_End, per the code comment "Default to TAG_End"),
not the scalar-Byte discriminant 1, followed by a 4-byte count of zero. -/
theorem claim_C4 (nm : PyName) :
    encodePayload (Tag.list nm []) = .ok ([0] ++ leBytes 4 0) := by
  simp only [encodePayload]
  rw [E.bindOk putInt_zero_one, E.bindOk putInt_zero_four]

/-- Claim C4 counterexample: the concrete empty list encodes with leading
element-kind byte 0, where the claim requires the byte 1. -/
theorem counterexample_C4 :
    encodePayload (Tag.list (.str []) []) = .ok [0, 0, 0, 0, 0] :=
  rfl

/-- Claim C4 witness: the empty list with an integer name. -/
theorem witness_C4 :
    encodePayload (Tag.list (.int 0) []) = .ok ([0] ++ leBytes 4 0) :=
  claim_C4 (.int 0)

/-- Claim C5: for a palette of size p (1 ≤ p ≤ 2^32) the encoder computes
bitsPerBlock = max(ceil(log2 p), 1), and for any 4096 indices below p,
packing into 4-byte little-endian words (floor(32 / bitsPerBlock) indices
per word, low bits first, zero-filled final word) then unpacking with
_loadBlocks reproduces the index sequence exactly; the header byte is
bitsPerBlock shifted left one bit. -/
theorem claim_C5 (p : Nat) (hp : 1 ≤ p) (hp2 : p ≤ 2 ^ 32)
    (ids : List Nat) (hlen : ids.length = 4096) (hlt : ∀ a ∈ ids, a < p) :
    bitsPerBlock p = max (Nat.clog 2 p) 1 ∧
    ∃ bs, saveBlocks p ids = .ok bs ∧
      bs = (bitsPerBlock p <<< 1) :: bs.tail ∧
      ∀ rest, loadBlocksM (bs ++ rest) = .ok (ids, rest) :=
  ⟨bitsPerBlock_eq_clog p hp hp2, loadBlocks_saveBlocks p hp hp2 ids hlen hlt⟩

/-- Claim C5 witness: a single-entry palette (bitsPerBlock = 1) with all
4096 indices zero packs and unpacks exactly. -/
theorem witness_C5 :
    bitsPerBlock 1 = max (Nat.clog 2 1) 1 ∧
    ∃ bs, saveBlocks 1 (List.replicate 4096 0) = .ok bs ∧
      bs = (bitsPerBlock 1 <<< 1) :: bs.tail ∧
      ∀ rest, loadBlocksM (bs ++ rest) =
        .ok (List.replicate 4096 0, rest) :=
  claim_C5 1 (le_refl 1) Nat.one_le_two_pow (List.replicate 4096 0)
    (List.length_replicate 4096 0)
    (fun a ha => by rw [List.eq_of_mem_replicate ha]; exact Nat.zero_lt_one)

/-- Claim C6 (corrected): TAG_List.encode performs no homogeneity check and
raises no error on mixed element kinds: for any non-empty payload whose
elementwise encoding succeeds, it writes the FIRST element's discriminant,
the 4-byte count, and each element's payload — even when later elements
have different kinds (counterexample_C6 encodes a Byte/Short mix). -/
theorem claim_C6 (nm : PyName) (t : Tag) (rest : List Tag) (body : List Nat)
    (hb : encodeItems (t :: rest) = .ok body)
    (hlen : (t :: rest).length < 2 ^ 31) :
    encodePayload (Tag.list nm (t :: rest)) =
      .ok ([t.id] ++ leBytes 4 (t :: rest).length ++ body) := by
  have hput4 := putInt_nat (w := 4) (by omega) (t :: rest).length
    (by norm_num; simp only [List.length_cons] at hlen; omega)
  simp only [encodePayload]
  rw [E.bindOk (putInt_tagId t), E.bindOk hput4, E.bindOk hb]

/-- Claim C6 counterexample: a list holding a Byte and a Short — elements
of different kinds — encodes successfully to a buffer (kind byte 1 of the
first element, count 2, then both payloads) instead of failing. -/
theorem counterexample_C6 :
    encodePayload
      (Tag.list (.str []) [Tag.byte (.int 0) 0, Tag.short (.int 1) 0]) =
      .ok [1, 2, 0, 0, 0, 0, 0, 0] :=
  rfl

/-- Claim C6 witness: a concrete homogeneous two-element byte list. -/
theorem witness_C6 :
    encodePayload
      (Tag.list (.str []) [Tag.byte (.int 0) 3, Tag.byte (.int 1) 4]) =
      .ok ([1] ++ leBytes 4 2 ++ [3, 4]) :=
  claim_C6 (.str []) (Tag.byte (.int 0) 3) [Tag.byte (.int 1) 4] [3, 4] rfl
    (by norm_num)

/-- Claim C7: the decode path reads the block for logical coordinate
(x, y, z) from wire flat position x*256 + z*16 + y (reshape(16,16,16) then
swapaxes(1,2)), and the encode path writes the block at logical (x, y, z)
to that same wire flat position (swapaxes(1,2) then reshape(4096)): both
directions exchange the Y and Z axis roles. -/
theorem claim_C7 (flat : List Block) (v : Vol) (x y z : Fin 16) :
    swapaxes12 (reshape3 flat) x y z =
      flat.getD (x.val * 256 + z.val * 16 + y.val) defaultBlock ∧
    (flatten3 (swapaxes12 v)).getD (x.val * 256 + z.val * 16 + y.val)
      defaultBlock = v x y z :=
  ⟨decode_arrange flat x y z, encode_arrange v x y z⟩

/-- Claim C8 (corrected): the discriminant byte is read as a SIGNED byte
and used as a Python list index into the 13-entry dispatch list, so the
failure mode depends on the byte: bytes 13..242 map outside the list and
fail with IndexError; bytes in {0,5,6,11,12} and {243,248,249,254,255} hit
a None entry and fail with the not-implemented error; and the two's-
complement alias bytes {244,245,246,247,250,251,252,253} wrap around to
the VALID classes 1,2,3,4,7,8,9,10 and decode as tags rather than failing
(counterexample_C8: byte 253 decodes as a Compound). -/
theorem claim_C8 (b : Nat) (hb : b < 256) (rest : List Nat) :
    (13 ≤ b ∧ b ≤ 242 →
      nbtDecode 1 (b :: rest) = .error .indexError) ∧
    (b = 0 ∨ b = 5 ∨ b = 6 ∨ b = 11 ∨ b = 12 ∨
        b = 243 ∨ b = 248 ∨ b = 249 ∨ b = 254 ∨ b = 255 →
      nbtDecode 1 (b :: rest) = .error .tagNotImplemented) ∧
    (b = 244 ∨ b = 245 ∨ b = 246 ∨ b = 247 ∨
        b = 250 ∨ b = 251 ∨ b = 252 ∨ b = 253 →
      ∃ k, validTagId k = true ∧ tagsIdx (toSigned 1 b) = .cls k) := by
  refine ⟨fun hrange => ?_, fun hmem => ?_, fun hmem => ?_⟩
  · obtain ⟨h13, h242⟩ := hrange
    have hd : tagsIdx (toSigned 1 b) = .oob := by
      rw [toSigned]
      by_cases hc : b < 2 ^ (8 * 1 - 1)
      · rw [if_pos hc, tagsIdx, if_neg (by omega), if_neg (by omega)]
      · rw [if_neg hc]
        have h256 : ((2 : Int) ^ (8 * 1)) = 256 := by norm_num
        rw [h256, tagsIdx, if_neg (by omega), if_neg (by omega)]
    rw [nbtDecode, M.bind_ok (popM_cons_byte b rest), hd, Dispatch.caseM_oob,
      M.fail_apply]
  · have hd : tagsIdx (toSigned 1 b) = Dispatch.noneEntry := by
      rcases hmem with rfl | rfl | rfl | rfl | rfl | rfl | rfl | rfl | rfl | rfl
        <;> rfl
    rw [nbtDecode, M.bind_ok (popM_cons_byte b rest), hd,
      Dispatch.caseM_noneEntry, M.fail_apply]
  · rcases hmem with rfl | rfl | rfl | rfl | rfl | rfl | rfl | rfl
    · exact ⟨1, rfl, rfl⟩
    · exact ⟨2, rfl, rfl⟩
    · exact ⟨3, rfl, rfl⟩
    · exact ⟨4, rfl, rfl⟩
    · exact ⟨7, rfl, rfl⟩
    · exact ⟨8, rfl, rfl⟩
    · exact ⟨9, rfl, rfl⟩
    · exact ⟨10, rfl, rfl⟩

/-- Claim C8 counterexample: the discriminant byte 253 is outside
{1,2,3,4,7,8,9,10}, yet decoding does not fail: read as the signed value
-3 it indexes tags[10] and decodes an empty Compound. -/
theorem counterexample_C8 :
    validTagId 253 = false ∧
    nbtDecode 2 [253, 0, 0, 0] = .ok (Tag.compound (.str []) [], []) :=
  ⟨rfl, rfl⟩

/-- Claim C8 witness: byte 42 fails with IndexError. -/
theorem witness_C8 :
    nbtDecode 1 [42] = .error .indexError :=
  (claim_C8 42 (by decide) []).1 (by decide)

/-- Claim C9: removing the final byte of any valid encoded buffer makes
decoding fail with the truncation error and no partial value — for a
non-empty stream of well-formed top-level tags, and for a saved subchunk
of any well-formed volume. -/
theorem claim_C9 :
    (∀ ts : List Tag, ts ≠ [] → (∀ t ∈ ts, tagOK t = true) →
      ∀ N : Nat, (∀ t ∈ ts, tagFuel t ≤ N) → ∀ sf : Nat, ts.length ≤ sf →
      ∃ bs, encodeStream ts = .ok bs ∧ bs ≠ [] ∧
        decodeStream sf N bs.dropLast = .error .truncated) ∧
    (∀ vol : Vol, volOK vol → ∀ fuel : Nat, 6 ≤ fuel →
      ∃ bs, subchunkSave 8 vol = .ok bs ∧
        subchunkDecode fuel bs.dropLast = .error .truncated) :=
  ⟨stream_trunc, subchunk_trunc⟩

/-- Claim C9 witness: the one-tag stream of a concrete Byte tag, encoded
then cut by one byte, fails with the truncation error. -/
theorem witness_C9 :
    ∃ bs, encodeStream [Tag.byte (.str []) 1] = .ok bs ∧ bs ≠ [] ∧
      decodeStream 1 1 bs.dropLast = .error .truncated :=
  claim_C9.1 [Tag.byte (.str []) 1] (List.cons_ne_nil _ _)
    (fun t ht => by rw [List.mem_singleton] at ht; rw [ht]; rfl)
    1 (fun t ht => by rw [List.mem_singleton] at ht; rw [ht]; decide)
    1 (le_refl 1)

/-- Claim C10: TAG_Compound.pop with name n returns None and leaves the
child list unchanged when no child is named n; when the list splits as
pre ++ t :: post with no child of pre named n and t named n, it returns t
and leaves pre ++ post — every other child in its original relative order,
later duplicates of n kept. -/
theorem claim_C10 (nm : PyName) (l : List Tag) :
    ((∀ t ∈ l, t.name ≠ nm) → tagPop nm l = (none, l)) ∧
    (∀ (pre : List Tag) (t : Tag) (post : List Tag),
      l = pre ++ t :: post → (∀ u ∈ pre, u.name ≠ nm) → t.name = nm →
      tagPop nm l = (some t, pre ++ post)) := by
  refine ⟨tagPop_none nm l, fun pre t post hl hpre ht => ?_⟩
  rw [hl]
  exact tagPop_first nm t ht pre hpre post

/-- Claim C10 witness: popping name "a" from a three-child compound payload
removes the first child of that name and keeps the later duplicate. -/
theorem witness_C10 :
    tagPop (.str [97])
      [Tag.byte (.str [98]) 0, Tag.byte (.str [97]) 1,
        Tag.byte (.str [97]) 2] =
      (some (Tag.byte (.str [97]) 1),
        [Tag.byte (.str [98]) 0, Tag.byte (.str [97]) 2]) :=
  (claim_C10 (.str [97])
      [Tag.byte (.str [98]) 0, Tag.byte (.str [97]) 1,
        Tag.byte (.str [97]) 2]).2
    [Tag.byte (.str [98]) 0] (Tag.byte (.str [97]) 1)
    [Tag.byte (.str [97]) 2] rfl
    (fun u hu => by rw [List.mem_singleton] at hu; rw [hu]; decide) rfl

end Bedrock
